import Mathlib

/-!
Verification of the Codelens-AI correlation and metrics engine.

This file gives a shallow embedding of the engine's core functions —
the two-phase session/commit correlator (`correlateSessions` and its
helpers from `src/correlator.js`, second variant), the cost model
(`getPricingTier`, `calculateCostBreakdown` and the multi-model session
cost finalization from `src/claude-parser.js`), the line-survival
estimator and grading/token-analytics functions from the metrics
module — and proves the specification's testable properties about them.

Conventions of the embedding: JavaScript millisecond timestamps are
`Int`; monetary amounts are `ℚ`; JS `Map`/object key-value collections
are association lists in insertion order, with `Map.set` updating an
existing key in place; `Math.round` is `jsRound`; `String.includes`
after `toLowerCase` works on the list of lowered characters.
-/

namespace Codelens

/-- One per-file change record `(path, added, deleted)` of a commit. -/
structure FileChange where
  path : String
  added : Nat
  deleted : Nat
deriving DecidableEq, Repr

/-- A commit record as produced by the git analyzer. -/
structure Commit where
  hash : String
  timestampMs : Int
  files : List FileChange
  totalAdded : Nat
  totalDeleted : Nat
  onMain : Bool
deriving DecidableEq, Repr

/-- A cost breakdown `{inputCost, outputCost, cacheReadCost, cacheCreationCost, totalCost}`. -/
structure Cost where
  inputCost : ℚ
  outputCost : ℚ
  cacheReadCost : ℚ
  cacheCreationCost : ℚ
  totalCost : ℚ
deriving DecidableEq, Repr

/-- A session record as produced by the session parser (fields the core consumes). -/
structure Session where
  sessionId : String
  repoPath : String
  startMs : Int
  endMs : Int
  filesWritten : List String
  userMessageCount : Nat
  assistantMessageCount : Nat
  totalInputTokens : Nat
  totalOutputTokens : Nat
  cacheReadTokens : Nat
  cacheCreationTokens : Nat
  cost : Cost
deriving DecidableEq, Repr

/-- `commitsByRepo`: repository path → that repository's commit list, in object insertion order. -/
abbrev RepoMap := List (String × List Commit)

/-- `commitsByRepo[repoPath]?.commits || []`. -/
def lookupRepo (commitsByRepo : RepoMap) (repoPath : String) : List Commit :=
  match commitsByRepo.find? (fun p => p.1 = repoPath) with
  | some p => p.2
  | none => []

/-- All commits of all repositories, in iteration order. -/
def allRepoCommits (commitsByRepo : RepoMap) : List Commit :=
  commitsByRepo.flatMap (fun p => p.2)

/-! ## Correlator (two-phase variant of `correlateSessions`) -/

/-- `FALLBACK_BUFFER_MS = 2 * 60 * 60 * 1000` (2 hours). -/
def FALLBACK_BUFFER_MS : Int := 2 * 60 * 60 * 1000

/-- `temporalDistance(commitMs, sessionStartMs, sessionEndMs)`: 0 inside the
session window, else the smaller absolute distance to either endpoint. -/
def temporalDistance (commitMs sessionStartMs sessionEndMs : Int) : Int :=
  if sessionStartMs ≤ commitMs ∧ commitMs ≤ sessionEndMs then 0
  else min |commitMs - sessionStartMs| |commitMs - sessionEndMs|

/-- `sessionFiles.size > 0 && commit.files.some(f => sessionFiles.has(f.path))`. -/
def hasFileOverlapB (session : Session) (commit : Commit) : Bool :=
  !session.filesWritten.isEmpty && commit.files.any (fun f => session.filesWritten.contains f.path)

/-- `sessionFiles.size === 0` (chat-only session). -/
def isChatOnlyB (session : Session) : Bool :=
  session.filesWritten.isEmpty

/-- A value of the phase-1 candidate map: `{ session, hasFileOverlap, distance }`. -/
structure Assignment where
  session : Session
  hasFileOverlap : Bool
  distance : Int
deriving DecidableEq, Repr

/-- The phase-1 `commitAssignment` JS `Map`, as an insertion-ordered association list. -/
abbrev AssignMap := List (String × Assignment)

/-- `Map.set`: update an existing key in place, else append at the end. -/
def setAssign : AssignMap → String → Assignment → AssignMap
  | [], hash, a => [(hash, a)]
  | (k, v) :: rest, hash, a =>
    if k = hash then (k, a) :: rest else (k, v) :: setAssign rest hash a

/-- `Map.get`. -/
def getAssign (m : AssignMap) (hash : String) : Option Assignment :=
  (m.find? (fun p => p.1 = hash)).map (fun p => p.2)

/-- The body of phase 1 after the two guard `continue`s: compare the candidate
`(session, hasOverlap)` against the existing entry for `commit.hash`. -/
def resolveCandidate (m : AssignMap) (commit : Commit) (session : Session) (hasOverlap : Bool) :
    AssignMap :=
  let distance := temporalDistance commit.timestampMs session.startMs session.endMs
  match getAssign m commit.hash with
  | none => setAssign m commit.hash ⟨session, hasOverlap, distance⟩
  | some existing =>
    if hasOverlap && !existing.hasFileOverlap then
      setAssign m commit.hash ⟨session, hasOverlap, distance⟩
    else if hasOverlap == existing.hasFileOverlap && distance < existing.distance then
      setAssign m commit.hash ⟨session, hasOverlap, distance⟩
    else m

/-- One iteration of the phase-1 inner loop over a repository's commits. -/
def considerCommit (session : Session) (m : AssignMap) (commit : Commit) : AssignMap :=
  if commit.timestampMs < session.startMs ∨ commit.timestampMs > session.endMs + FALLBACK_BUFFER_MS then
    m
  else if !hasFileOverlapB session commit && !isChatOnlyB session then
    m
  else
    resolveCandidate m commit session (hasFileOverlapB session commit)

/-- Phase 1: build the candidate map `commitHash → { session, hasFileOverlap, distance }`. -/
def buildAssignment (sessions : List Session) (commitsByRepo : RepoMap) : AssignMap :=
  sessions.foldl (fun m session =>
    (lookupRepo commitsByRepo session.repoPath).foldl (considerCommit session) m) []

/-- Push a commit at the end of the bucket for `sid` (creating the bucket if absent). -/
def appendCommit : List (String × List Commit) → String → Commit → List (String × List Commit)
  | [], sid, c => [(sid, [c])]
  | (k, cs) :: rest, sid, c =>
    if k = sid then (k, cs ++ [c]) :: rest else (k, cs) :: appendCommit rest sid c

/-- `sessionCommits.get(sessionId)`. -/
def lookupGroup (groups : List (String × List Commit)) (sid : String) : Option (List Commit) :=
  (groups.find? (fun p => p.1 = sid)).map (fun p => p.2)

/-- The phase-2 lookup of the actual commit object for a map entry: find the
commit of the winning session's repository whose hash is the entry key. -/
def foundCommit (commitsByRepo : RepoMap) (p : String × Assignment) : Option Commit :=
  (lookupRepo commitsByRepo p.2.session.repoPath).find? (fun c => c.hash = p.1)

/-- One phase-2 iteration: push the found commit into the winning session's
bucket (`if (commit) { sessionCommits.get(...).push(commit) }`). -/
def groupStep (commitsByRepo : RepoMap) (groups : List (String × List Commit))
    (p : String × Assignment) : List (String × List Commit) :=
  match foundCommit commitsByRepo p with
  | some commit => appendCommit groups p.2.session.sessionId commit
  | none => groups

/-- Phase 2: group assigned commits by winning session id, looking each commit
object up again in its repository by hash. -/
def groupBySession (commitsByRepo : RepoMap) (assign : AssignMap) :
    List (String × List Commit) :=
  assign.foldl (groupStep commitsByRepo) []

/-- `computeOverlappingLines`: sum added/deleted over commit files whose path
is in the session's written-files set. -/
def computeOverlappingLines (commits : List Commit) (sessionFiles : List String) : Nat × Nat :=
  commits.foldl (fun acc c =>
    c.files.foldl (fun acc2 f =>
      if sessionFiles.contains f.path then (acc2.1 + f.added, acc2.2 + f.deleted) else acc2) acc)
    (0, 0)

/-- The record phase 3 pushes for one session (the spread `...session` is the
nested `session` field here). -/
structure CorrelatedSession where
  session : Session
  commits : List Commit
  commitCount : Nat
  commitsOnMain : Nat
  linesAdded : Nat
  linesDeleted : Nat
  netLines : Int
  filesChanged : Nat
  isOrphaned : Bool
  matchedByFiles : Bool
  uncommittedFiles : List String
  costPerCommit : Option ℚ
  costPerLine : Option ℚ
  costPerNetLine : Option ℚ
deriving DecidableEq, Repr

/-- Phase 3 body for one session. -/
def buildCorrelated (grouped : List (String × List Commit)) (session : Session) :
    CorrelatedSession :=
  let sessionFiles := session.filesWritten
  let matched := (lookupGroup grouped session.sessionId).getD []
  let lines :=
    if !sessionFiles.isEmpty then computeOverlappingLines matched sessionFiles
    else (matched.foldl (fun s c => s + c.totalAdded) 0,
          matched.foldl (fun s c => s + c.totalDeleted) 0)
  let linesAdded := lines.1
  let linesDeleted := lines.2
  let netLines : Int := (linesAdded : Int) - (linesDeleted : Int)
  let filesChanged :=
    if !sessionFiles.isEmpty then
      ((matched.flatMap (fun c =>
        (c.files.filter (fun f => sessionFiles.contains f.path)).map (fun f => f.path))).dedup).length
    else ((matched.flatMap (fun c => c.files.map (fun f => f.path))).dedup).length
  let commitsOnMain := (matched.filter (fun c => c.onMain)).length
  let messageCount := session.userMessageCount + session.assistantMessageCount
  let isOrphaned := decide (messageCount > 10) && matched.isEmpty
  let committedFiles := matched.flatMap (fun c => c.files.map (fun f => f.path))
  let uncommittedFiles := sessionFiles.dedup.filter (fun f => !committedFiles.contains f)
  { session := session
    commits := matched
    commitCount := matched.length
    commitsOnMain := commitsOnMain
    linesAdded := linesAdded
    linesDeleted := linesDeleted
    netLines := netLines
    filesChanged := filesChanged
    isOrphaned := isOrphaned
    matchedByFiles := !sessionFiles.isEmpty
    uncommittedFiles := uncommittedFiles
    costPerCommit :=
      if matched.length > 0 then some (session.cost.totalCost / matched.length) else none
    costPerLine :=
      if linesAdded > 0 then some (session.cost.totalCost / linesAdded) else none
    costPerNetLine :=
      if netLines > 0 then some (session.cost.totalCost / netLines) else none }

/-- The correlator's result `{ correlatedSessions, organicCommits }`. -/
structure CorrelationResult where
  correlatedSessions : List CorrelatedSession
  organicCommits : List Commit
deriving Repr

/-- The two-phase `correlateSessions(sessions, commitsByRepo)`. -/
def correlateSessions (sessions : List Session) (commitsByRepo : RepoMap) : CorrelationResult :=
  let assign := buildAssignment sessions commitsByRepo
  let grouped := groupBySession commitsByRepo assign
  let claimedCommits := assign.map (fun p => p.1)
  let result := sessions.map (buildCorrelated grouped)
  let organicCommits :=
    commitsByRepo.flatMap (fun p => p.2.filter (fun c => !claimedCommits.contains c.hash))
  { correlatedSessions :=
      List.insertionSort (fun a b => b.session.startMs ≤ a.session.startMs) result
    organicCommits := organicCommits }

/-! ## Cost model (`claude-parser.js`) -/

/-- One pricing tier: dollars per million tokens. -/
structure PricingRow where
  input : ℚ
  output : ℚ
  cacheRead : ℚ
  cacheWrite : ℚ
deriving DecidableEq, Repr

/-- The keys of the `PRICING` table. -/
inductive PricingTier
  | opusNew
  | opusOld
  | sonnet
  | haikuNew
  | haiku35
  | haiku3
deriving DecidableEq, Repr

/-- The `PRICING` table. -/
def PRICING : PricingTier → PricingRow
  | .opusNew => ⟨5, 25, 1/2, 25/4⟩
  | .opusOld => ⟨15, 75, 3/2, 75/4⟩
  | .sonnet => ⟨3, 15, 3/10, 15/4⟩
  | .haikuNew => ⟨1, 5, 1/10, 5/4⟩
  | .haiku35 => ⟨4/5, 4, 2/25, 1⟩
  | .haiku3 => ⟨1/4, 5/4, 3/100, 3/10⟩

/-- JS `haystack.includes(needle)` on a list of characters. -/
def jsIncludes (haystack : List Char) (needle : String) : Bool :=
  decide (List.IsInfix needle.data haystack)

/-- `getPricingTier(modelName)`; `none` models both JS `null` and the falsy
empty string. -/
def getPricingTier (modelName : Option String) : Option PricingTier :=
  match modelName with
  | none => none
  | some name =>
    if name = "" then none
    else
      let lower := name.data.map Char.toLower
      if jsIncludes lower "opus" then
        if jsIncludes lower "4-5" || jsIncludes lower "4-6" ||
            jsIncludes lower "4.5" || jsIncludes lower "4.6" then some .opusNew
        else some .opusOld
      else if jsIncludes lower "sonnet" then some .sonnet
      else if jsIncludes lower "haiku" then
        if jsIncludes lower "4-5" || jsIncludes lower "4.5" ||
            jsIncludes lower "4-6" || jsIncludes lower "4.6" then some .haikuNew
        else if jsIncludes lower "3-5" || jsIncludes lower "3.5" then some .haiku35
        else some .haiku3
      else none

/-- `PER_MIL = 1_000_000`. -/
def PER_MIL : ℚ := 1000000

/-- `calculateCostBreakdown`: per-component cost at the model's pricing tier;
all-zero when the tier is unknown. -/
def calculateCostBreakdown (inputTokens outputTokens cacheReadTokens cacheCreationTokens : Nat)
    (modelName : Option String) : Cost :=
  match getPricingTier modelName with
  | none => ⟨0, 0, 0, 0, 0⟩
  | some tier =>
    let p := PRICING tier
    let inputCost := (inputTokens : ℚ) * p.input / PER_MIL
    let outputCost := (outputTokens : ℚ) * p.output / PER_MIL
    let cacheReadCost := (cacheReadTokens : ℚ) * p.cacheRead / PER_MIL
    let cacheCreationCost := (cacheCreationTokens : ℚ) * p.cacheWrite / PER_MIL
    ⟨inputCost, outputCost, cacheReadCost, cacheCreationCost,
      inputCost + outputCost + cacheReadCost + cacheCreationCost⟩

/-- Per-model token sums accumulated by `parseSessionFile` (`modelTokens[model]`). -/
structure ModelTokens where
  input : Nat
  output : Nat
  cacheRead : Nat
  cacheCreate : Nat
deriving DecidableEq, Repr

/-- The `primaryModel` selection: first model reaching the strictly largest
total token count (`if (totalTokens > maxTokens)` against initial 0). -/
def selectPrimaryModel (modelTokens : List (String × ModelTokens)) : Option String :=
  (modelTokens.foldl (fun acc p =>
    let totalTokens := p.2.input + p.2.output + p.2.cacheRead + p.2.cacheCreate
    if totalTokens > acc.1 then (totalTokens, some p.1) else acc) (0, (none : Option String))).2

/-- One iteration of the multi-model recomputation loop: add one model's
independently computed breakdown into the running accumulators. -/
def addModelCost (acc : Cost) (p : String × ModelTokens) : Cost :=
  let breakdown := calculateCostBreakdown p.2.input p.2.output p.2.cacheRead p.2.cacheCreate
    (some p.1)
  ⟨acc.inputCost + breakdown.inputCost, acc.outputCost + breakdown.outputCost,
    acc.cacheReadCost + breakdown.cacheReadCost,
    acc.cacheCreationCost + breakdown.cacheCreationCost,
    acc.totalCost + breakdown.totalCost⟩

/-- The session-cost finalization of `parseSessionFile`: the cost breakdown of
the token totals at the primary model's tier, overwritten — when more than one
model was used — by the running componentwise sum of per-model breakdowns. -/
def finalizeSessionCost (modelTokens : List (String × ModelTokens))
    (totalInputTokens totalOutputTokens cacheReadTokens cacheCreationTokens : Nat) : Cost :=
  let primaryModel := selectPrimaryModel modelTokens
  let base := calculateCostBreakdown totalInputTokens totalOutputTokens cacheReadTokens
    cacheCreationTokens primaryModel
  if modelTokens.length > 1 then
    modelTokens.foldl addModelCost ⟨0, 0, 0, 0, 0⟩
  else base

/-- Specification-side formulation for the multi-model rule: the componentwise
sum of each model's independently computed cost breakdown at its own tier. -/
def perModelCostSum (modelTokens : List (String × ModelTokens)) : Cost :=
  { inputCost := (modelTokens.map (fun p =>
      (calculateCostBreakdown p.2.input p.2.output p.2.cacheRead p.2.cacheCreate (some p.1)).inputCost)).sum
    outputCost := (modelTokens.map (fun p =>
      (calculateCostBreakdown p.2.input p.2.output p.2.cacheRead p.2.cacheCreate (some p.1)).outputCost)).sum
    cacheReadCost := (modelTokens.map (fun p =>
      (calculateCostBreakdown p.2.input p.2.output p.2.cacheRead p.2.cacheCreate (some p.1)).cacheReadCost)).sum
    cacheCreationCost := (modelTokens.map (fun p =>
      (calculateCostBreakdown p.2.input p.2.output p.2.cacheRead p.2.cacheCreate (some p.1)).cacheCreationCost)).sum
    totalCost := (modelTokens.map (fun p =>
      (calculateCostBreakdown p.2.input p.2.output p.2.cacheRead p.2.cacheCreate (some p.1)).totalCost)).sum }

/-! ## Line survival, grading and token analytics (metrics module) -/

/-- `CHURN_WINDOW_MS = 24 * 60 * 60 * 1000` (24 hours). -/
def CHURN_WINDOW_MS : Int := 24 * 60 * 60 * 1000

/-- One entry of a file's change timeline. -/
structure ChurnEvent where
  timestampMs : Int
  added : Nat
  deleted : Nat
deriving DecidableEq, Repr

/-- Push a change event at the end of the bucket for `path`. -/
def appendEvent : List (String × List ChurnEvent) → String → ChurnEvent →
    List (String × List ChurnEvent)
  | [], path, e => [(path, [e])]
  | (k, es) :: rest, path, e =>
    if k = path then (k, es ++ [e]) :: rest else (k, es) :: appendEvent rest path e

/-- The `fileTimeline` map: file path → its change events in commit order. -/
def fileTimeline (commits : List Commit) : List (String × List ChurnEvent) :=
  commits.foldl (fun m commit =>
    commit.files.foldl (fun m2 file =>
      appendEvent m2 file.path ⟨commit.timestampMs, file.added, file.deleted⟩) m) []

/-- The indexed walk over one file's sorted events: total added, and total
churned = `min(next.deleted, cur.added)` over consecutive pairs ≤ 24h apart. -/
def churnWalk : List ChurnEvent → Nat × Nat
  | [] => (0, 0)
  | [e] => (e.added, 0)
  | e1 :: e2 :: rest =>
    let acc := churnWalk (e2 :: rest)
    (e1.added + acc.1,
      (if e2.timestampMs - e1.timestampMs ≤ CHURN_WINDOW_MS then min e2.deleted e1.added else 0)
        + acc.2)

/-- JS `Math.round` (half away from zero on non-negatives; `⌊q + 1/2⌋`). -/
def jsRound (q : ℚ) : Int := ⌊q + 1/2⌋

/-- The line-survival result record. -/
structure LineSurvival where
  totalAdded : Nat
  totalChurned : Nat
  surviving : Int
  survivalRate : Int
deriving DecidableEq, Repr

/-- Accumulate one file's timeline into the running `(totalAdded, totalChurned)`
pair: sort the events chronologically and walk consecutive pairs. -/
def survivalFileStep (acc2 : Nat × Nat) (q : String × List ChurnEvent) : Nat × Nat :=
  let sorted := List.insertionSort (fun a b => a.timestampMs ≤ b.timestampMs) q.2
  let walked := churnWalk sorted
  (acc2.1 + walked.1, acc2.2 + walked.2)

/-- Accumulate one repository: skip when it has no commits, else fold its
file timelines. -/
def survivalRepoStep (acc : Nat × Nat) (p : String × List Commit) : Nat × Nat :=
  let userCommits := p.2
  if userCommits.isEmpty then acc
  else (fileTimeline userCommits).foldl survivalFileStep acc

/-- `computeLineSurvival(commitsByRepo)`. -/
def computeLineSurvival (commitsByRepo : RepoMap) : LineSurvival :=
  let totals := commitsByRepo.foldl survivalRepoStep ((0, 0) : Nat × Nat)
  let totalAdded := totals.1
  let totalChurned := totals.2
  let surviving : Int := (totalAdded : Int) - (totalChurned : Int)
  let rawRate : ℚ := if totalAdded > 0 then ((surviving : ℚ) / (totalAdded : ℚ)) * 100 else 100
  ⟨totalAdded, totalChurned, surviving, jsRound (rawRate / 5) * 5⟩

/-- Letter grades. -/
inductive Grade
  | A
  | B
  | C
  | D
  | F
deriving DecidableEq, Repr

/-- `computeEfficiencyGrade(costPerCommit, survivalRate)` (cost-based variant). -/
def computeEfficiencyGrade (costPerCommit : ℚ) (survivalRate : ℚ) : Grade :=
  if costPerCommit ≤ 2 ∧ survivalRate ≥ 90 then .A
  else if costPerCommit ≤ 5 ∧ survivalRate ≥ 75 then .B
  else if costPerCommit ≤ 15 ∧ survivalRate ≥ 50 then .C
  else if costPerCommit ≤ 40 ∧ survivalRate ≥ 25 then .D
  else .F

/-- Rank of a grade on the order A > B > C > D > F (higher is better). -/
def gradeValue : Grade → Nat
  | .A => 4
  | .B => 3
  | .C => 2
  | .D => 1
  | .F => 0

/-- `computeSessionGrade(session)`: F with zero commits, else the efficiency
grade of cost-per-commit against the hardcoded survival rate 80. -/
def computeSessionGrade (session : CorrelatedSession) : Grade :=
  if session.commitCount = 0 then .F
  else computeEfficiencyGrade (session.session.cost.totalCost / (session.commitCount : ℚ)) 80

/-- `sessionTokens(s)`: all four token counters of a session. -/
def sessionTokens (s : CorrelatedSession) : Nat :=
  s.session.totalInputTokens + s.session.totalOutputTokens + s.session.cacheReadTokens
    + s.session.cacheCreationTokens

/-- The numeric core of `computeTokenAnalytics` (totals and the token-waste
funnel; derived display ratios and text omitted). -/
structure TokenAnalytics where
  totalAllTokens : Int
  totalInputTokens : Int
  totalOutputTokens : Int
  totalCacheReadTokens : Int
  totalCacheCreationTokens : Int
  tokensProductive : Int
  tokensOrphaned : Int
  tokensExploratory : Int
  costOrphaned : ℚ
deriving DecidableEq, Repr

/-- `computeTokenAnalytics(correlatedSessions, ...)`, numeric funnel part. -/
def computeTokenAnalytics (correlatedSessions : List CorrelatedSession) : TokenAnalytics :=
  let totalInputTokens : Int :=
    correlatedSessions.foldl (fun s c => s + (c.session.totalInputTokens : Int)) 0
  let totalOutputTokens : Int :=
    correlatedSessions.foldl (fun s c => s + (c.session.totalOutputTokens : Int)) 0
  let totalCacheReadTokens : Int :=
    correlatedSessions.foldl (fun s c => s + (c.session.cacheReadTokens : Int)) 0
  let totalCacheCreationTokens : Int :=
    correlatedSessions.foldl (fun s c => s + (c.session.cacheCreationTokens : Int)) 0
  let totalAllTokens :=
    totalInputTokens + totalOutputTokens + totalCacheReadTokens + totalCacheCreationTokens
  let productiveSessions := correlatedSessions.filter (fun s => decide (s.commitCount > 0))
  let orphanedSessions := correlatedSessions.filter (fun s => s.isOrphaned)
  let tokensProductive : Int :=
    productiveSessions.foldl (fun s c => s + (sessionTokens c : Int)) 0
  let tokensOrphaned : Int :=
    orphanedSessions.foldl (fun s c => s + (sessionTokens c : Int)) 0
  let tokensExploratory := totalAllTokens - tokensProductive - tokensOrphaned
  let costOrphaned := orphanedSessions.foldl (fun s c => s + c.session.cost.totalCost) 0
  ⟨totalAllTokens, totalInputTokens, totalOutputTokens, totalCacheReadTokens,
    totalCacheCreationTokens, tokensProductive, tokensOrphaned, tokensExploratory, costOrphaned⟩

/-! ## Analysis-side definitions

Derived notions used to state and prove properties of the correlator: the
candidate relation and preference order implicit in phase 1, the per-commit
view of the phase-1 fold, and concrete fixtures for the testable scenarios. -/

/-- The per-commit transition of phase 1: the effect of one (session, commit)
iteration on that commit's own map entry.  Mirrors `considerCommit` exactly,
with the map replaced by the entry at key `commit.hash`. -/
def stepCandidate (session : Session) (commit : Commit) (e : Option Assignment) :
    Option Assignment :=
  if commit.timestampMs < session.startMs ∨ commit.timestampMs > session.endMs + FALLBACK_BUFFER_MS then
    e
  else if !hasFileOverlapB session commit && !isChatOnlyB session then
    e
  else
    let distance := temporalDistance commit.timestampMs session.startMs session.endMs
    let hasOverlap := hasFileOverlapB session commit
    match e with
    | none => some ⟨session, hasOverlap, distance⟩
    | some existing =>
      if hasOverlap && !existing.hasFileOverlap then
        some ⟨session, hasOverlap, distance⟩
      else if hasOverlap == existing.hasFileOverlap && distance < existing.distance then
        some ⟨session, hasOverlap, distance⟩
      else e

/-- One outer step of the per-commit view: a session only processes the
commits of its own repository. -/
def assignStep (commitsByRepo : RepoMap) (commit : Commit) (e : Option Assignment)
    (session : Session) : Option Assignment :=
  if commit ∈ lookupRepo commitsByRepo session.repoPath then stepCandidate session commit e
  else e

/-- The candidate relation of phase 1: the session sees the commit in its
repository, the commit lies in `[startMs, endMs + buffer]`, and there is file
overlap or the session is chat-only. -/
def isCandidate (commitsByRepo : RepoMap) (session : Session) (commit : Commit) : Prop :=
  commit ∈ lookupRepo commitsByRepo session.repoPath
  ∧ session.startMs ≤ commit.timestampMs
  ∧ commit.timestampMs ≤ session.endMs + FALLBACK_BUFFER_MS
  ∧ (hasFileOverlapB session commit = true ∨ session.filesWritten = [])

instance (commitsByRepo : RepoMap) (session : Session) (commit : Commit) :
    Decidable (isCandidate commitsByRepo session commit) := by
  unfold isCandidate
  infer_instance

/-- The map entry a winning session gets for a commit. -/
def entryOf (session : Session) (commit : Commit) : Assignment :=
  ⟨session, hasFileOverlapB session commit,
    temporalDistance commit.timestampMs session.startMs session.endMs⟩

/-- The strict preference order of the resolution step: `s` beats `t` when `s`
has file overlap and `t` does not, or both match the same way and `s` is
temporally strictly closer. -/
def rankLt (s t : Session) (commit : Commit) : Prop :=
  (hasFileOverlapB s commit = true ∧ hasFileOverlapB t commit = false)
  ∨ (hasFileOverlapB s commit = hasFileOverlapB t commit
      ∧ temporalDistance commit.timestampMs s.startMs s.endMs
        < temporalDistance commit.timestampMs t.startMs t.endMs)

instance (s t : Session) (commit : Commit) : Decidable (rankLt s t commit) := by
  unfold rankLt
  infer_instance

/-- A well-formed entry of the phase-1 map: the winning session comes from the
input session list and the key is the hash of a commit of its repository. -/
def EntryOk (sessions : List Session) (commitsByRepo : RepoMap)
    (p : String × Assignment) : Prop :=
  p.2.session ∈ sessions
  ∧ ∃ c ∈ lookupRepo commitsByRepo p.2.session.repoPath, c.hash = p.1

/-- Invariant of the per-commit fold: the accumulator is `none` while no
processed session is a candidate, and afterwards the entry of a processed
candidate that no other processed candidate strictly beats. -/
def FoldInv (commitsByRepo : RepoMap) (commit : Commit) (procd : List Session)
    (e : Option Assignment) : Prop :=
  (e = none ∧ ∀ s ∈ procd, ¬ isCandidate commitsByRepo s commit)
  ∨ (∃ t, e = some (entryOf t commit) ∧ t ∈ procd ∧ isCandidate commitsByRepo t commit
      ∧ ∀ s ∈ procd, isCandidate commitsByRepo s commit → ¬ rankLt s t commit)

/-- Remove the first binding of a key from a bucket list. -/
def eraseKey : List (String × List Commit) → String → List (String × List Commit)
  | [], _ => []
  | (k, v) :: rest, sid => if k = sid then rest else (k, v) :: eraseKey rest sid

/-- The two-model example of the specification: 1,000,000 input tokens on a
Sonnet tier at $3/M plus 500,000 input tokens on an old Opus tier at $15/M. -/
def c4models : List (String × ModelTokens) :=
  [("claude-sonnet-4-5", ⟨1000000, 0, 0, 0⟩), ("claude-opus-4-1", ⟨500000, 0, 0, 0⟩)]

/-- Fixture for the spec's tie-break scenario: session A 10:00–10:30 wrote
`a.js` (milliseconds measured from 10:00). -/
def c3sessA : Session :=
  ⟨"A", "r", 0, 1800000, ["a.js"], 1, 1, 0, 0, 0, 0, ⟨0, 0, 0, 0, 0⟩⟩

/-- Fixture: session B 10:20–10:40 wrote `b.js`. -/
def c3sessB : Session :=
  ⟨"B", "r", 1200000, 2400000, ["b.js"], 1, 1, 0, 0, 0, 0, ⟨0, 0, 0, 0, 0⟩⟩

/-- Fixture: a commit at 10:35 touching only `b.js`. -/
def c3commit : Commit := ⟨"c1", 2100000, [⟨"b.js", 10, 2⟩], 10, 2, true⟩

/-- Fixture: the single repository holding `c3commit`. -/
def c3repos : RepoMap := [("r", [c3commit])]

/-- Fixture for the order-dependence counterexample: chat-only session
covering `[0, 1000]`. -/
def c2sessT1 : Session := ⟨"T1", "r", 0, 1000, [], 1, 1, 0, 0, 0, 0, ⟨0, 0, 0, 0, 0⟩⟩

/-- Fixture: chat-only session covering `[100, 1000]`, tying with `c2sessT1`
(both at temporal distance 0) on the commit below. -/
def c2sessT2 : Session := ⟨"T2", "r", 100, 1000, [], 1, 1, 0, 0, 0, 0, ⟨0, 0, 0, 0, 0⟩⟩

/-- Fixture: a commit at time 500, inside both sessions' windows. -/
def c2commit : Commit := ⟨"ct", 500, [], 0, 0, true⟩

/-- Fixture: the single repository holding `c2commit`. -/
def c2repos : RepoMap := [("r", [c2commit])]

/-- Fixture for the order-independence witness: chat-only session
`[0, 1000]`, at distance 900 from the commit below. -/
def c2sessW1 : Session := ⟨"W1", "r", 0, 1000, [], 1, 1, 0, 0, 0, 0, ⟨0, 0, 0, 0, 0⟩⟩

/-- Fixture: chat-only session `[1500, 3000]`, containing the commit below
(distance 0), hence the unique best candidate. -/
def c2sessW2 : Session := ⟨"W2", "r", 1500, 3000, [], 1, 1, 0, 0, 0, 0, ⟨0, 0, 0, 0, 0⟩⟩

/-- Fixture: a commit at time 1900. -/
def c2commitW : Commit := ⟨"cw", 1900, [], 0, 0, true⟩

/-- Fixture: the single repository holding `c2commitW`. -/
def c2reposW : RepoMap := [("r", [c2commitW])]

/-- Fixture for the partition counterexample: two repositories whose single
commits share the hash `"h"` (hashes unique within each repository, not
across). -/
def c1commitA : Commit := ⟨"h", 500, [], 3, 0, true⟩

/-- Fixture: the second repository's commit, same hash `"h"`. -/
def c1commitB : Commit := ⟨"h", 900, [], 4, 0, true⟩

/-- Fixture: chat-only session of the first repository covering its commit. -/
def c1sessS1 : Session := ⟨"S1", "r1", 0, 1000, [], 1, 1, 0, 0, 0, 0, ⟨0, 0, 0, 0, 0⟩⟩

/-- Fixture: chat-only session of the second repository covering its commit. -/
def c1sessS2 : Session := ⟨"S2", "r2", 0, 1000, [], 1, 1, 0, 0, 0, 0, ⟨0, 0, 0, 0, 0⟩⟩

/-- Fixture: the two-repository map with the colliding hashes. -/
def c1repos : RepoMap := [("r1", [c1commitA]), ("r2", [c1commitB])]

/-! ## Generic fold lemmas -/

/-- A predicate preserved by every step of a left fold holds of the result. -/
theorem foldl_preserve {α β : Type} (P : β → Prop) (f : β → α → β) (l : List α) (b : β)
    (hb : P b) (hf : ∀ b x, P b → P (f b x)) : P (l.foldl f b) := by
  induction l generalizing b with
  | nil => exact hb
  | cons hd tl ih => exact ih (f b hd) (hf b hd hb)

/-- A left fold that adds `f x` at each step computes `acc` plus the mapped sum. -/
theorem foldl_add_map_sum {M α : Type} [AddCommMonoid M] (f : α → M) (l : List α) (acc : M) :
    l.foldl (fun s c => s + f c) acc = acc + (l.map f).sum := by
  induction l generalizing acc with
  | nil => simp
  | cons hd tl ih => simp [ih, add_assoc]

/-! ## C9: unknown pricing tier degrades to all-zero cost -/

/-- C9: for every token-count input and every model identifier that matches no
known pricing tier (including the JS-falsy `null`/empty string, both of which
make `getPricingTier` return `none`), `calculateCostBreakdown` returns the
all-zero cost breakdown.  The embedding is a total function, so no exception
is possible. -/
theorem calculateCostBreakdown_unknown_zero
    (inputTokens outputTokens cacheReadTokens cacheCreationTokens : Nat)
    (modelName : Option String) (h : getPricingTier modelName = none) :
    calculateCostBreakdown inputTokens outputTokens cacheReadTokens cacheCreationTokens modelName
      = ⟨0, 0, 0, 0, 0⟩ := by
  unfold calculateCostBreakdown
  rw [h]

/-- Witness for C9 at the concrete unknown model `"gpt-4o"` (and at `none`). -/
theorem calculateCostBreakdown_unknown_zero_witness :
    getPricingTier (some "gpt-4o") = none ∧
      calculateCostBreakdown 123 456 789 1011 (some "gpt-4o") = ⟨0, 0, 0, 0, 0⟩ ∧
      calculateCostBreakdown 7 8 9 10 none = ⟨0, 0, 0, 0, 0⟩ :=
  ⟨by decide,
    calculateCostBreakdown_unknown_zero 123 456 789 1011 (some "gpt-4o") (by decide),
    calculateCostBreakdown_unknown_zero 7 8 9 10 none rfl⟩

/-! ## C6: chat-only sessions are candidates by time alone -/

/-- C6: a session with an empty written-files set is chat-only; for any commit
whose timestamp lies in `[startMs, endMs + FALLBACK_BUFFER_MS]`, the phase-1
step passes both guards and submits the pair to candidate resolution with
`hasFileOverlap = false` — a candidate by time alone, with no file-overlap
requirement. -/
theorem chatOnly_candidate_by_time (session : Session) (commit : Commit) (m : AssignMap)
    (hchat : session.filesWritten = [])
    (h1 : session.startMs ≤ commit.timestampMs)
    (h2 : commit.timestampMs ≤ session.endMs + FALLBACK_BUFFER_MS) :
    considerCommit session m commit = resolveCandidate m commit session false := by
  unfold considerCommit
  have hwin : ¬(commit.timestampMs < session.startMs ∨
      commit.timestampMs > session.endMs + FALLBACK_BUFFER_MS) := by
    push_neg
    exact ⟨h1, h2⟩
  have hover : hasFileOverlapB session commit = false := by
    unfold hasFileOverlapB
    rw [hchat]
    rfl
  have hchatB : isChatOnlyB session = true := by
    unfold isChatOnlyB
    rw [hchat]
    rfl
  rw [if_neg hwin, hover, hchatB]
  simp

/-- Witness for C6: a concrete chat-only session and a commit 90 minutes after
the session end. -/
theorem chatOnly_candidate_by_time_witness :
    considerCommit ⟨"S", "r", 0, 1000, [], 1, 1, 0, 0, 0, 0, ⟨0, 0, 0, 0, 0⟩⟩ []
        ⟨"c", 1000 + 5400000, [], 0, 0, true⟩
      = resolveCandidate [] ⟨"c", 1000 + 5400000, [], 0, 0, true⟩
          ⟨"S", "r", 0, 1000, [], 1, 1, 0, 0, 0, 0, ⟨0, 0, 0, 0, 0⟩⟩ false :=
  chatOnly_candidate_by_time _ _ _ rfl (by norm_num) (by norm_num [FALLBACK_BUFFER_MS])

/-! ## C7: grade monotonicity -/

theorem grade_eq_A_iff (c s : ℚ) :
    computeEfficiencyGrade c s = .A ↔ (c ≤ 2 ∧ 90 ≤ s) := by
  unfold computeEfficiencyGrade
  split_ifs with h1 h2 h3 h4 <;> simp_all [ge_iff_le]

theorem grade_eq_B_iff (c s : ℚ) :
    computeEfficiencyGrade c s = .B ↔ (¬(c ≤ 2 ∧ 90 ≤ s) ∧ (c ≤ 5 ∧ 75 ≤ s)) := by
  unfold computeEfficiencyGrade
  split_ifs with h1 h2 h3 h4 <;> simp_all [ge_iff_le]

theorem grade_eq_C_iff (c s : ℚ) :
    computeEfficiencyGrade c s = .C ↔
      (¬(c ≤ 2 ∧ 90 ≤ s) ∧ ¬(c ≤ 5 ∧ 75 ≤ s) ∧ (c ≤ 15 ∧ 50 ≤ s)) := by
  unfold computeEfficiencyGrade
  split_ifs with h1 h2 h3 h4 <;> simp_all [ge_iff_le]

theorem grade_eq_D_iff (c s : ℚ) :
    computeEfficiencyGrade c s = .D ↔
      (¬(c ≤ 2 ∧ 90 ≤ s) ∧ ¬(c ≤ 5 ∧ 75 ≤ s) ∧ ¬(c ≤ 15 ∧ 50 ≤ s) ∧ (c ≤ 40 ∧ 25 ≤ s)) := by
  unfold computeEfficiencyGrade
  split_ifs with h1 h2 h3 h4 <;> simp_all [ge_iff_le]

/-- Joint monotonicity of the efficiency grade: lowering cost-per-commit and
raising survival rate never worsens the grade rank. -/
theorem gradeValue_mono (c1 c2 s1 s2 : ℚ) (hc : c1 ≤ c2) (hs : s2 ≤ s1) :
    gradeValue (computeEfficiencyGrade c2 s2) ≤ gradeValue (computeEfficiencyGrade c1 s1) := by
  rcases hg : computeEfficiencyGrade c2 s2 with - | - | - | - | -
  case F => simp [gradeValue]
  case A =>
    obtain ⟨h1, h2⟩ := (grade_eq_A_iff c2 s2).mp hg
    have hA : computeEfficiencyGrade c1 s1 = .A :=
      (grade_eq_A_iff c1 s1).mpr ⟨le_trans hc h1, le_trans h2 hs⟩
    rw [hA]
  case B =>
    obtain ⟨-, h1, h2⟩ := (grade_eq_B_iff c2 s2).mp hg
    by_cases hA : c1 ≤ 2 ∧ 90 ≤ s1
    · rw [(grade_eq_A_iff c1 s1).mpr hA]
      decide
    · rw [(grade_eq_B_iff c1 s1).mpr ⟨hA, le_trans hc h1, le_trans h2 hs⟩]
  case C =>
    obtain ⟨-, -, h1, h2⟩ := (grade_eq_C_iff c2 s2).mp hg
    by_cases hA : c1 ≤ 2 ∧ 90 ≤ s1
    · rw [(grade_eq_A_iff c1 s1).mpr hA]
      decide
    · by_cases hB : c1 ≤ 5 ∧ 75 ≤ s1
      · rw [(grade_eq_B_iff c1 s1).mpr ⟨hA, hB⟩]
        decide
      · rw [(grade_eq_C_iff c1 s1).mpr ⟨hA, hB, le_trans hc h1, le_trans h2 hs⟩]
  case D =>
    obtain ⟨-, -, -, h1, h2⟩ := (grade_eq_D_iff c2 s2).mp hg
    by_cases hA : c1 ≤ 2 ∧ 90 ≤ s1
    · rw [(grade_eq_A_iff c1 s1).mpr hA]
      decide
    · by_cases hB : c1 ≤ 5 ∧ 75 ≤ s1
      · rw [(grade_eq_B_iff c1 s1).mpr ⟨hA, hB⟩]
        decide
      · by_cases hC : c1 ≤ 15 ∧ 50 ≤ s1
        · rw [(grade_eq_C_iff c1 s1).mpr ⟨hA, hB, hC⟩]
          decide
        · rw [(grade_eq_D_iff c1 s1).mpr ⟨hA, hB, hC, le_trans hc h1, le_trans h2 hs⟩]

/-- C7: `computeEfficiencyGrade` is monotone — with the survival rate fixed, a
lower cost-per-commit grades at least as well (on A > B > C > D > F, encoded by
`gradeValue`), and with the cost fixed, a higher survival rate grades at least
as well. -/
theorem efficiencyGrade_monotone (c1 c2 c s s1 s2 : ℚ) :
    (c1 ≤ c2 →
      gradeValue (computeEfficiencyGrade c2 s) ≤ gradeValue (computeEfficiencyGrade c1 s))
    ∧ (s2 ≤ s1 →
      gradeValue (computeEfficiencyGrade c s2) ≤ gradeValue (computeEfficiencyGrade c s1)) :=
  ⟨fun hc => gradeValue_mono c1 c2 s s hc le_rfl,
    fun hs => gradeValue_mono c c s1 s2 le_rfl hs⟩

/-- Witness for C7 at concrete inputs: cost 1 vs 100 at survival 80, and
survival 40 vs 80 at cost 3. -/
theorem efficiencyGrade_monotone_witness :
    gradeValue (computeEfficiencyGrade 100 80) ≤ gradeValue (computeEfficiencyGrade 1 80) ∧
      gradeValue (computeEfficiencyGrade 3 40) ≤ gradeValue (computeEfficiencyGrade 3 80) :=
  ⟨(efficiencyGrade_monotone 1 100 3 80 80 40).1 (by norm_num),
    (efficiencyGrade_monotone 1 100 3 80 80 40).2 (by norm_num)⟩

/-! ## C10: the per-session grade never reaches A -/

/-- C10: `computeSessionGrade` never returns `A`: zero-commit sessions grade
`F`, and every other session is graded with the hardcoded survival rate 80,
which fails the `A` branch's `survivalRate ≥ 90` requirement; `B` is attainable,
so it is the best per-session grade. -/
theorem computeSessionGrade_never_A :
    (∀ s : CorrelatedSession, computeSessionGrade s ≠ .A
      ∧ (s.commitCount = 0 → computeSessionGrade s = .F))
    ∧ ∃ s : CorrelatedSession, computeSessionGrade s = .B := by
  constructor
  · intro s
    constructor
    · intro hA
      unfold computeSessionGrade at hA
      by_cases h0 : s.commitCount = 0
      · rw [if_pos h0] at hA
        exact absurd hA (by decide)
      · rw [if_neg h0] at hA
        have h90 := ((grade_eq_A_iff _ _).mp hA).2
        norm_num at h90
    · intro h0
      unfold computeSessionGrade
      rw [if_pos h0]
  · refine ⟨⟨⟨"S", "r", 0, 0, [], 0, 0, 0, 0, 0, 0, ⟨0, 0, 0, 3, 3⟩⟩,
      [], 1, 0, 0, 0, 0, 0, false, false, [], none, none, none⟩, ?_⟩
    unfold computeSessionGrade
    rw [if_neg (by norm_num)]
    rw [(grade_eq_B_iff _ _).mpr (by norm_num)]

/-- Witness for C10 at a concrete zero-commit session. -/
theorem computeSessionGrade_never_A_witness :
    computeSessionGrade ⟨⟨"S", "r", 0, 0, [], 0, 0, 0, 0, 0, 0, ⟨0, 0, 0, 0, 0⟩⟩,
        [], 0, 0, 0, 0, 0, 0, true, false, [], none, none, none⟩ = .F ∧
      computeSessionGrade ⟨⟨"S", "r", 0, 0, [], 0, 0, 0, 0, 0, 0, ⟨0, 0, 0, 0, 0⟩⟩,
        [], 0, 0, 0, 0, 0, 0, true, false, [], none, none, none⟩ ≠ .A :=
  ⟨(computeSessionGrade_never_A.1 _).2 rfl, (computeSessionGrade_never_A.1 _).1⟩

/-! ## C4: multi-model sessions price each model at its own tier -/

/-- The multi-model fold computes the accumulator plus the componentwise sums
of the per-model breakdowns. -/
theorem addModelCost_foldl (l : List (String × ModelTokens)) (acc : Cost) :
    l.foldl addModelCost acc =
      ⟨acc.inputCost + (l.map (fun p =>
          (calculateCostBreakdown p.2.input p.2.output p.2.cacheRead p.2.cacheCreate (some p.1)).inputCost)).sum,
        acc.outputCost + (l.map (fun p =>
          (calculateCostBreakdown p.2.input p.2.output p.2.cacheRead p.2.cacheCreate (some p.1)).outputCost)).sum,
        acc.cacheReadCost + (l.map (fun p =>
          (calculateCostBreakdown p.2.input p.2.output p.2.cacheRead p.2.cacheCreate (some p.1)).cacheReadCost)).sum,
        acc.cacheCreationCost + (l.map (fun p =>
          (calculateCostBreakdown p.2.input p.2.output p.2.cacheRead p.2.cacheCreate (some p.1)).cacheCreationCost)).sum,
        acc.totalCost + (l.map (fun p =>
          (calculateCostBreakdown p.2.input p.2.output p.2.cacheRead p.2.cacheCreate (some p.1)).totalCost)).sum⟩ := by
  induction l generalizing acc with
  | nil => simp
  | cons hd tl ih => simp [ih, addModelCost, add_assoc]

/-- C4: for a session that used more than one distinct model identifier, the
finalized session cost breakdown equals the componentwise sum of the per-model
cost breakdowns, each computed independently at its own pricing tier. -/
theorem multiModel_cost_additive (modelTokens : List (String × ModelTokens))
    (totalInputTokens totalOutputTokens cacheReadTokens cacheCreationTokens : Nat)
    (h : modelTokens.length > 1) :
    finalizeSessionCost modelTokens totalInputTokens totalOutputTokens cacheReadTokens
        cacheCreationTokens
      = perModelCostSum modelTokens := by
  simp only [finalizeSessionCost]
  rw [if_pos h, addModelCost_foldl]
  unfold perModelCostSum
  simp

/-- Witness for C4: on the spec's example the combined `inputCost` is
$3.00 + $7.50 = $10.50, not the single-tier $4.50. -/
theorem multiModel_cost_additive_witness :
    finalizeSessionCost c4models 1500000 0 0 0 = perModelCostSum c4models ∧
      (perModelCostSum c4models).inputCost = 21/2 := by
  constructor
  · exact multiModel_cost_additive c4models 1500000 0 0 0 (by decide)
  · have h1 : getPricingTier (some "claude-sonnet-4-5") = some .sonnet := by decide
    have h2 : getPricingTier (some "claude-opus-4-1") = some .opusOld := by decide
    simp [perModelCostSum, c4models, calculateCostBreakdown, h1, h2, PRICING, PER_MIL]
    norm_num

/-! ## C5: line-survival bounds -/

/-- In one file's walk, the churned total never exceeds the added total:
each consecutive pair contributes at most `cur.added`. -/
theorem churnWalk_le (l : List ChurnEvent) : (churnWalk l).2 ≤ (churnWalk l).1 := by
  induction l with
  | nil => simp [churnWalk]
  | cons e1 tl ih =>
    cases tl with
    | nil => simp [churnWalk]
    | cons e2 rest =>
      have hmin : (if e2.timestampMs - e1.timestampMs ≤ CHURN_WINDOW_MS then
          min e2.deleted e1.added else 0) ≤ e1.added := by
        split_ifs
        · exact min_le_right _ _
        · exact Nat.zero_le _
      simp only [churnWalk]
      omega

/-- Every survival fold step preserves `totalChurned ≤ totalAdded`. -/
theorem survivalRepoStep_preserve (acc : Nat × Nat) (p : String × List Commit)
    (h : acc.2 ≤ acc.1) : (survivalRepoStep acc p).2 ≤ (survivalRepoStep acc p).1 := by
  show (if p.2.isEmpty = true then acc else List.foldl survivalFileStep acc (fileTimeline p.2)).2
    ≤ (if p.2.isEmpty = true then acc else List.foldl survivalFileStep acc (fileTimeline p.2)).1
  split_ifs
  · exact h
  · refine foldl_preserve (fun a => a.2 ≤ a.1) survivalFileStep _ acc h ?_
    intro b q hb
    show b.2 + (churnWalk _).2 ≤ b.1 + (churnWalk _).1
    exact Nat.add_le_add hb (churnWalk_le _)

/-- Bounds of the rounded survival rate, as a function of the two totals. -/
theorem survivalRate_core (a c : Nat) (hle : c ≤ a) :
    0 ≤ jsRound ((if a > 0 then ((((a : Int) - (c : Int) : Int) : ℚ) / (a : ℚ)) * 100 else 100) / 5) * 5
    ∧ jsRound ((if a > 0 then ((((a : Int) - (c : Int) : Int) : ℚ) / (a : ℚ)) * 100 else 100) / 5) * 5 ≤ 100
    ∧ (5 : Int) ∣ jsRound ((if a > 0 then ((((a : Int) - (c : Int) : Int) : ℚ) / (a : ℚ)) * 100 else 100) / 5) * 5
    ∧ (a = 0 →
        jsRound ((if a > 0 then ((((a : Int) - (c : Int) : Int) : ℚ) / (a : ℚ)) * 100 else 100) / 5) * 5 = 100) := by
  set rawRate : ℚ := if a > 0 then ((((a : Int) - (c : Int) : Int) : ℚ) / (a : ℚ)) * 100 else 100
    with hraw
  have h0 : (0 : ℚ) ≤ rawRate ∧ rawRate ≤ 100 := by
    rw [hraw]
    split_ifs with hpos
    · have ha : (0 : ℚ) < (a : ℚ) := by exact_mod_cast hpos
      have hnum0 : (0 : ℚ) ≤ (((a : Int) - (c : Int) : Int) : ℚ) := by
        push_cast
        have : (c : ℚ) ≤ (a : ℚ) := by exact_mod_cast hle
        linarith
      have hnum1 : (((a : Int) - (c : Int) : Int) : ℚ) ≤ (a : ℚ) := by
        push_cast
        have : (0 : ℚ) ≤ (c : ℚ) := by positivity
        linarith
      constructor
      · positivity
      · have hq : (((a : Int) - (c : Int) : Int) : ℚ) / (a : ℚ) ≤ 1 :=
          (div_le_one ha).mpr hnum1
        nlinarith
    · norm_num
  have hj0 : 0 ≤ jsRound (rawRate / 5) := by
    unfold jsRound
    rw [Int.le_floor]
    push_cast
    linarith [h0.1]
  have hj1 : jsRound (rawRate / 5) ≤ 20 := by
    unfold jsRound
    have : ⌊rawRate / 5 + 1/2⌋ < 21 := by
      rw [Int.floor_lt]
      push_cast
      linarith [h0.2]
    omega
  refine ⟨by omega, by omega, ⟨jsRound (rawRate / 5), mul_comm _ _⟩, ?_⟩
  intro ha0
  have hrr : rawRate = 100 := by
    rw [hraw, if_neg (by omega)]
  rw [hrr]
  have : jsRound ((100 : ℚ) / 5) = 20 := by
    unfold jsRound
    rw [Int.floor_eq_iff]
    constructor
    · norm_num
    · norm_num
  rw [this]
  norm_num

/-- C5: for every input, the survival rate lies in `[0, 100]`, is a multiple
of 5, and equals 100 when the total of added lines is 0 (per-file counts are
non-negative by the `Nat` types of the embedding). -/
theorem computeLineSurvival_bounds (commitsByRepo : RepoMap) :
    0 ≤ (computeLineSurvival commitsByRepo).survivalRate
    ∧ (computeLineSurvival commitsByRepo).survivalRate ≤ 100
    ∧ (5 : Int) ∣ (computeLineSurvival commitsByRepo).survivalRate
    ∧ ((computeLineSurvival commitsByRepo).totalAdded = 0 →
        (computeLineSurvival commitsByRepo).survivalRate = 100) := by
  have hle : (commitsByRepo.foldl survivalRepoStep ((0, 0) : Nat × Nat)).2
      ≤ (commitsByRepo.foldl survivalRepoStep ((0, 0) : Nat × Nat)).1 :=
    foldl_preserve (fun acc => acc.2 ≤ acc.1) survivalRepoStep commitsByRepo ((0, 0) : Nat × Nat)
      le_rfl survivalRepoStep_preserve
  exact survivalRate_core _ _ hle

/-- Witness for C5: the empty input has zero added lines and survival rate 100. -/
theorem computeLineSurvival_bounds_witness :
    (computeLineSurvival []).totalAdded = 0 ∧ (computeLineSurvival []).survivalRate = 100 :=
  ⟨rfl, (computeLineSurvival_bounds []).2.2.2 rfl⟩

/-! ## C8: the token-waste funnel partitions the session set -/

/-- The correlator marks a session orphaned only when it won zero commits. -/
theorem correlated_orphaned_zero (sessions : List Session) (commitsByRepo : RepoMap) :
    ∀ s ∈ (correlateSessions sessions commitsByRepo).correlatedSessions,
      s.isOrphaned = true → s.commitCount = 0 := by
  intro s hs
  unfold correlateSessions at hs
  simp only at hs
  rw [List.Perm.mem_iff (List.perm_insertionSort _ _)] at hs
  obtain ⟨sess, -, rfl⟩ := List.mem_map.mp hs
  intro horph
  simp only [buildCorrelated] at horph ⊢
  rw [Bool.and_eq_true] at horph
  have hempty := horph.2
  simp_all

/-- Sum of the four per-field token casts equals the sum of `sessionTokens`. -/
theorem sum_map_tokens (l : List CorrelatedSession) :
    (l.map fun s => ((s.session.totalInputTokens : Int))).sum
      + (l.map fun s => ((s.session.totalOutputTokens : Int))).sum
      + (l.map fun s => ((s.session.cacheReadTokens : Int))).sum
      + (l.map fun s => ((s.session.cacheCreationTokens : Int))).sum
    = (l.map fun s => ((sessionTokens s : Int))).sum := by
  induction l with
  | nil => simp
  | cons hd tl ih =>
    simp only [List.map_cons, List.sum_cons]
    rw [← ih]
    have hhd : ((sessionTokens hd : Int))
        = (hd.session.totalInputTokens : Int) + (hd.session.totalOutputTokens : Int)
          + (hd.session.cacheReadTokens : Int) + (hd.session.cacheCreationTokens : Int) := by
      unfold sessionTokens
      push_cast
      ring
    rw [hhd]
    ring

/-- Splitting the token sum by the funnel's three classes, given that orphaned
sessions won zero commits. -/
theorem sum_split_funnel (l : List CorrelatedSession)
    (h : ∀ s ∈ l, s.isOrphaned = true → s.commitCount = 0) :
    (l.map fun s => ((sessionTokens s : Int))).sum
      = ((l.filter fun s => decide (s.commitCount > 0)).map fun s => ((sessionTokens s : Int))).sum
        + ((l.filter fun s => s.isOrphaned).map fun s => ((sessionTokens s : Int))).sum
        + ((l.filter fun s => !(decide (s.commitCount > 0)) && !s.isOrphaned).map
            fun s => ((sessionTokens s : Int))).sum := by
  induction l with
  | nil => simp
  | cons hd tl ih =>
    have hhd := h hd (by simp)
    have htl : ∀ s ∈ tl, s.isOrphaned = true → s.commitCount = 0 := by
      intro s hs
      exact h s (by simp [hs])
    by_cases h1 : hd.commitCount > 0 <;> by_cases h2 : hd.isOrphaned = true
    · exact absurd (hhd h2) (by omega)
    · have h2f : hd.isOrphaned = false := by simp_all
      simp [List.filter_cons, h1, h2f, ih htl]
      ring
    · have h1f : decide (hd.commitCount > 0) = false := by simp [h1]
      simp [List.filter_cons, h1f, h2, ih htl]
      ring
    · have h1f : decide (hd.commitCount > 0) = false := by simp [h1]
      have h2f : hd.isOrphaned = false := by simp_all
      simp [List.filter_cons, h1f, h2f, ih htl]
      ring

/-- Sums of casts of natural numbers are non-negative. -/
theorem sum_map_natCast_nonneg {α : Type} (f : α → Nat) (l : List α) :
    0 ≤ (l.map fun x => ((f x : Int))).sum := by
  refine List.sum_nonneg ?_
  intro x hx
  obtain ⟨a, -, rfl⟩ := List.mem_map.mp hx
  positivity

/-- C8: over the correlator's output, the token-waste funnel's three classes —
productive (`commitCount > 0`), orphaned (`isOrphaned`), exploratory (the
rest) — are pairwise disjoint and jointly exhaustive: productive + orphaned +
exploratory tokens equal the total, the exploratory bucket is exactly the sum
over the remaining sessions, every bucket is non-negative, and no session is
both productive and orphaned. -/
theorem tokenFunnel_partition (sessions : List Session) (commitsByRepo : RepoMap) :
    (computeTokenAnalytics (correlateSessions sessions commitsByRepo).correlatedSessions).tokensProductive
      + (computeTokenAnalytics (correlateSessions sessions commitsByRepo).correlatedSessions).tokensOrphaned
      + (computeTokenAnalytics (correlateSessions sessions commitsByRepo).correlatedSessions).tokensExploratory
      = (computeTokenAnalytics (correlateSessions sessions commitsByRepo).correlatedSessions).totalAllTokens
    ∧ (computeTokenAnalytics (correlateSessions sessions commitsByRepo).correlatedSessions).tokensExploratory
      = (((correlateSessions sessions commitsByRepo).correlatedSessions.filter
          (fun s => !(decide (s.commitCount > 0)) && !s.isOrphaned)).map
            (fun s => ((sessionTokens s : Int)))).sum
    ∧ 0 ≤ (computeTokenAnalytics (correlateSessions sessions commitsByRepo).correlatedSessions).tokensProductive
    ∧ 0 ≤ (computeTokenAnalytics (correlateSessions sessions commitsByRepo).correlatedSessions).tokensOrphaned
    ∧ 0 ≤ (computeTokenAnalytics (correlateSessions sessions commitsByRepo).correlatedSessions).tokensExploratory
    ∧ ((correlateSessions sessions commitsByRepo).correlatedSessions.filter
        (fun s => decide (s.commitCount > 0) && s.isOrphaned)) = [] := by
  have horph := correlated_orphaned_zero sessions commitsByRepo
  set cs := (correlateSessions sessions commitsByRepo).correlatedSessions with hcs
  simp only [computeTokenAnalytics, foldl_add_map_sum, zero_add]
  have hsplit := sum_split_funnel cs horph
  have htot := sum_map_tokens cs
  have hrest := sum_map_natCast_nonneg sessionTokens
    (cs.filter fun s => !(decide (s.commitCount > 0)) && !s.isOrphaned)
  refine ⟨by ring, by linarith, sum_map_natCast_nonneg _ _, sum_map_natCast_nonneg _ _,
    by linarith, ?_⟩
  rw [List.filter_eq_nil_iff]
  intro s hs
  intro hno
  rw [Bool.and_eq_true] at hno
  have := horph s hs hno.2
  have hp := hno.1
  simp at hp
  omega

/-! ## Association-map lemmas for the phase-1 assignment map -/

/-- A fold-preservation lemma whose step hypothesis may use membership. -/
theorem foldl_preserve_mem {α β : Type} (P : β → Prop) (f : β → α → β) (l : List α) (b : β)
    (hb : P b) (hf : ∀ b x, x ∈ l → P b → P (f b x)) : P (l.foldl f b) := by
  induction l generalizing b with
  | nil => exact hb
  | cons hd tl ih =>
    exact ih (f b hd) (hf b hd (List.mem_cons_self hd tl) hb)
      (fun b x hx hPb => hf b x (List.mem_cons_of_mem hd hx) hPb)

theorem getAssign_setAssign_self (m : AssignMap) (h : String) (a : Assignment) :
    getAssign (setAssign m h a) h = some a := by
  induction m with
  | nil => simp [setAssign, getAssign, List.find?]
  | cons hd tl ih =>
    obtain ⟨k, v⟩ := hd
    unfold setAssign
    by_cases hk : k = h
    · simp [getAssign, List.find?, hk]
    · simp only [if_neg hk]
      simpa [getAssign, List.find?, hk] using ih

theorem getAssign_setAssign_ne (m : AssignMap) (h k : String) (a : Assignment)
    (hne : k ≠ h) : getAssign (setAssign m h a) k = getAssign m k := by
  have hne2 : h ≠ k := Ne.symm hne
  induction m with
  | nil => simp [setAssign, getAssign, List.find?, hne2]
  | cons hd tl ih =>
    obtain ⟨k0, v⟩ := hd
    unfold setAssign
    by_cases hk : k0 = h
    · subst hk
      simp [getAssign, List.find?, hne2, Ne.symm hne2]
    · simp only [if_neg hk]
      by_cases hk2 : k0 = k
      · simp [getAssign, List.find?, hk2]
      · simpa [getAssign, List.find?, hk2] using ih

/-- Every binding of `setAssign m h a` is either the new binding or one of `m`. -/
theorem mem_setAssign (m : AssignMap) (h : String) (a : Assignment) (p : String × Assignment)
    (hp : p ∈ setAssign m h a) : p = (h, a) ∨ p ∈ m := by
  induction m with
  | nil => simpa [setAssign] using hp
  | cons hd tl ih =>
    obtain ⟨k, v⟩ := hd
    unfold setAssign at hp
    by_cases hk : k = h
    · subst hk
      rcases List.mem_cons.mp (by simpa [if_pos] using hp) with h1 | h1
      · left
        simpa using h1
      · right
        exact List.mem_cons_of_mem _ h1
    · rcases List.mem_cons.mp (by simpa [if_neg hk] using hp) with h1 | h1
      · right
        simp [h1]
      · rcases ih h1 with h2 | h2
        · exact Or.inl h2
        · exact Or.inr (List.mem_cons_of_mem _ h2)

/-- The keys of `setAssign m h a`. -/
theorem keys_setAssign (m : AssignMap) (h : String) (a : Assignment) :
    ((setAssign m h a).map Prod.fst) = if h ∈ m.map Prod.fst then m.map Prod.fst
      else m.map Prod.fst ++ [h] := by
  induction m with
  | nil => simp [setAssign]
  | cons hd tl ih =>
    obtain ⟨k, v⟩ := hd
    unfold setAssign
    by_cases hk : k = h
    · subst hk
      simp
    · rw [if_neg hk]
      by_cases hmem : h ∈ tl.map Prod.fst
      · rw [List.map_cons, List.map_cons, ih, if_pos hmem, if_pos (by simp [hmem])]
      · rw [List.map_cons, List.map_cons, ih, if_neg hmem,
          if_neg (by simp [hmem, Ne.symm hk])]
        simp

/-- `setAssign` preserves distinctness of keys. -/
theorem keys_nodup_setAssign (m : AssignMap) (h : String) (a : Assignment)
    (hm : (m.map Prod.fst).Nodup) : ((setAssign m h a).map Prod.fst).Nodup := by
  rw [keys_setAssign]
  split_ifs with hmem
  · exact hm
  · simpa [List.nodup_append, hmem] using hm

/-- With distinct keys, membership determines the looked-up value. -/
theorem getAssign_of_mem_nodup (m : AssignMap) (h : String) (a : Assignment)
    (hm : (m.map Prod.fst).Nodup) (hp : (h, a) ∈ m) : getAssign m h = some a := by
  induction m with
  | nil => cases hp
  | cons hd tl ih =>
    obtain ⟨k, v⟩ := hd
    have hmc : (k :: tl.map Prod.fst).Nodup := by simpa using hm
    have hnd := List.nodup_cons.mp hmc
    rcases List.mem_cons.mp hp with h1 | h1
    · obtain ⟨rfl, rfl⟩ := Prod.mk.injEq .. |>.mp h1
      simp [getAssign, List.find?]
    · have hk : k ≠ h := by
        rintro rfl
        exact hnd.1 (List.mem_map.mpr ⟨(k, a), h1, rfl⟩)
      have hrec := ih hnd.2 h1
      simpa [getAssign, List.find?, hk] using hrec

/-- A looked-up binding is a member. -/
theorem mem_of_getAssign (m : AssignMap) (h : String) (a : Assignment)
    (ha : getAssign m h = some a) : (h, a) ∈ m := by
  unfold getAssign at ha
  rcases Option.map_eq_some'.mp ha with ⟨p, hp, hpa⟩
  have hmem := List.mem_of_find?_eq_some hp
  have hkey : p.1 = h := by
    have := List.find?_some hp
    simpa using this
  obtain ⟨p1, p2⟩ := p
  simp only at hkey hpa
  subst hkey
  subst hpa
  exact hmem

/-- Two bindings of the same key coincide when keys are distinct. -/
theorem assign_value_unique (m : AssignMap) (hm : (m.map Prod.fst).Nodup)
    (k : String) (a1 a2 : Assignment) (h1 : (k, a1) ∈ m) (h2 : (k, a2) ∈ m) : a1 = a2 := by
  have e1 := getAssign_of_mem_nodup m k a1 hm h1
  have e2 := getAssign_of_mem_nodup m k a2 hm h2
  rw [e1] at e2
  exact (Option.some.injEq .. |>.mp e2)

/-! ## The per-commit view of phase 1 -/

/-- `considerCommit` leaves other commits' entries unchanged. -/
theorem getAssign_considerCommit_ne (s : Session) (m : AssignMap) (c : Commit) (k : String)
    (hk : c.hash ≠ k) : getAssign (considerCommit s m c) k = getAssign m k := by
  unfold considerCommit resolveCandidate
  split_ifs
  · rfl
  · rfl
  · cases hg : getAssign m c.hash
    · simp only [hg]
      exact getAssign_setAssign_ne m c.hash k _ (Ne.symm hk)
    · simp only [hg]
      split_ifs <;>
        first
        | exact getAssign_setAssign_ne m c.hash k _ (Ne.symm hk)
        | rfl

/-- On the commit's own entry, `considerCommit` acts as `stepCandidate`. -/
theorem getAssign_considerCommit_self (s : Session) (m : AssignMap) (c : Commit) :
    getAssign (considerCommit s m c) c.hash = stepCandidate s c (getAssign m c.hash) := by
  unfold considerCommit stepCandidate resolveCandidate
  split_ifs
  · rfl
  · rfl
  · cases hg : getAssign m c.hash
    · simp only [hg]
      exact getAssign_setAssign_self m c.hash _
    · simp only [hg]
      split_ifs <;>
        first
        | exact getAssign_setAssign_self m c.hash _
        | exact hg

/-- Folding a list of commits none of which has hash `k` leaves entry `k` alone. -/
theorem innerFold_getAssign_ne (s : Session) (l : List Commit) (m : AssignMap) (k : String)
    (hk : ∀ c ∈ l, c.hash ≠ k) :
    getAssign (l.foldl (considerCommit s) m) k = getAssign m k := by
  induction l generalizing m with
  | nil => rfl
  | cons hd tl ih =>
    rw [List.foldl_cons, ih _ (fun c hc => hk c (List.mem_cons_of_mem hd hc))]
    exact getAssign_considerCommit_ne s m hd k (hk hd (List.mem_cons_self hd tl))

/-- Folding a commit list with distinct hashes acts on a member's entry as a
single `stepCandidate`. -/
theorem innerFold_getAssign_mem (s : Session) (l : List Commit) (m : AssignMap) (c : Commit)
    (hmem : c ∈ l) (hnodup : (l.map (fun x => x.hash)).Nodup) :
    getAssign (l.foldl (considerCommit s) m) c.hash = stepCandidate s c (getAssign m c.hash) := by
  induction l generalizing m with
  | nil => cases hmem
  | cons hd tl ih =>
    rw [List.map_cons] at hnodup
    have hnd := List.nodup_cons.mp hnodup
    rcases List.mem_cons.mp hmem with rfl | htl
    · have hne : ∀ x ∈ tl, x.hash ≠ c.hash := by
        intro x hx he
        exact hnd.1 (List.mem_map.mpr ⟨x, hx, he⟩)
      rw [List.foldl_cons, innerFold_getAssign_ne s tl _ _ hne]
      exact getAssign_considerCommit_self s m c
    · have hne : hd.hash ≠ c.hash := by
        intro he
        exact hnd.1 (he ▸ List.mem_map.mpr ⟨c, htl, rfl⟩)
      rw [List.foldl_cons, ih _ htl hnd.2]
      rw [getAssign_considerCommit_ne s m hd c.hash hne]

/-! ## Well-formedness of the phase-1 map -/

/-- The commits visible through `lookupRepo` form a sublist of all commits. -/
theorem lookupRepo_sublist (commitsByRepo : RepoMap) (rp : String) :
    (lookupRepo commitsByRepo rp).Sublist (allRepoCommits commitsByRepo) := by
  unfold lookupRepo allRepoCommits
  cases hf : commitsByRepo.find? (fun p => p.1 = rp) with
  | none => simp
  | some pair =>
    have hmem := List.mem_of_find?_eq_some hf
    clear hf
    induction commitsByRepo with
    | nil => cases hmem
    | cons hd tl ih =>
      rcases List.mem_cons.mp hmem with rfl | h1
      · rw [List.flatMap_cons]
        exact List.sublist_append_left pair.2 _
      · rw [List.flatMap_cons]
        exact (ih h1).trans (List.sublist_append_right _ _)

/-- Membership version of `lookupRepo_sublist`. -/
theorem mem_allRepoCommits_of_lookup {commitsByRepo : RepoMap} {rp : String} {c : Commit}
    (hc : c ∈ lookupRepo commitsByRepo rp) : c ∈ allRepoCommits commitsByRepo :=
  (lookupRepo_sublist commitsByRepo rp).subset hc

/-- With globally distinct hashes, a repository's commit list has distinct
hashes. -/
theorem lookupRepo_hash_nodup (commitsByRepo : RepoMap) (rp : String)
    (hnodup : ((allRepoCommits commitsByRepo).map (fun x => x.hash)).Nodup) :
    ((lookupRepo commitsByRepo rp).map (fun x => x.hash)).Nodup :=
  ((lookupRepo_sublist commitsByRepo rp).map (fun x => x.hash)).nodup hnodup

/-- `considerCommit` preserves well-formedness of entries. -/
theorem considerCommit_entryOk (sessions : List Session) (commitsByRepo : RepoMap)
    (s : Session) (hs : s ∈ sessions) (c : Commit)
    (hc : c ∈ lookupRepo commitsByRepo s.repoPath) (m : AssignMap)
    (hm : ∀ p ∈ m, EntryOk sessions commitsByRepo p) :
    ∀ p ∈ considerCommit s m c, EntryOk sessions commitsByRepo p := by
  intro p hp
  unfold considerCommit resolveCandidate at hp
  split_ifs at hp
  · exact hm p hp
  · exact hm p hp
  · rcases hmatch : getAssign m c.hash with - | existing
    · rw [hmatch] at hp
      simp only at hp
      rcases mem_setAssign _ _ _ _ hp with rfl | hpm
      · exact ⟨hs, ⟨c, hc, rfl⟩⟩
      · exact hm p hpm
    · rw [hmatch] at hp
      simp only at hp
      split_ifs at hp
      · rcases mem_setAssign _ _ _ _ hp with rfl | hpm
        · exact ⟨hs, ⟨c, hc, rfl⟩⟩
        · exact hm p hpm
      · rcases mem_setAssign _ _ _ _ hp with rfl | hpm
        · exact ⟨hs, ⟨c, hc, rfl⟩⟩
        · exact hm p hpm
      · exact hm p hp

/-- `considerCommit` preserves distinctness of keys. -/
theorem considerCommit_keys_nodup (s : Session) (m : AssignMap) (c : Commit)
    (hm : (m.map Prod.fst).Nodup) : ((considerCommit s m c).map Prod.fst).Nodup := by
  unfold considerCommit resolveCandidate
  split_ifs
  · exact hm
  · exact hm
  · cases hmatch : getAssign m c.hash with
    | none =>
      simp only
      exact keys_nodup_setAssign m c.hash _ hm
    | some existing =>
      simp only
      split_ifs
      · exact keys_nodup_setAssign m c.hash _ hm
      · exact keys_nodup_setAssign m c.hash _ hm
      · exact hm

/-- Every entry of the phase-1 map is well-formed, and its keys are distinct. -/
theorem buildAssignment_ok (sessions : List Session) (commitsByRepo : RepoMap) :
    (∀ p ∈ buildAssignment sessions commitsByRepo, EntryOk sessions commitsByRepo p)
    ∧ ((buildAssignment sessions commitsByRepo).map Prod.fst).Nodup := by
  unfold buildAssignment
  refine foldl_preserve_mem
    (fun m => (∀ p ∈ m, EntryOk sessions commitsByRepo p) ∧ (m.map Prod.fst).Nodup)
    _ sessions [] ⟨by simp, by simp⟩ ?_
  intro m s hs hm
  refine foldl_preserve_mem
    (fun m2 => (∀ p ∈ m2, EntryOk sessions commitsByRepo p) ∧ (m2.map Prod.fst).Nodup)
    (considerCommit s) _ m hm ?_
  intro m2 c hc hm2
  exact ⟨considerCommit_entryOk sessions commitsByRepo s hs c hc m2 hm2.1,
    considerCommit_keys_nodup s m2 c hm2.2⟩

/-- With globally distinct hashes, the phase-1 map entry of a commit is the
per-commit fold of `assignStep` over the sessions, in input order. -/
theorem buildAssignment_getAssign (sessions : List Session) (commitsByRepo : RepoMap)
    (c : Commit) (hnodup : ((allRepoCommits commitsByRepo).map (fun x => x.hash)).Nodup)
    (hcmem : c ∈ allRepoCommits commitsByRepo) :
    getAssign (buildAssignment sessions commitsByRepo) c.hash
      = sessions.foldl (assignStep commitsByRepo c) none := by
  unfold buildAssignment
  suffices h : ∀ (l : List Session) (m : AssignMap),
      getAssign (l.foldl (fun m session => (lookupRepo commitsByRepo session.repoPath).foldl
        (considerCommit session) m) m) c.hash
      = l.foldl (assignStep commitsByRepo c) (getAssign m c.hash) by
    simpa [getAssign, List.find?] using h sessions []
  intro l
  induction l with
  | nil => intro m; rfl
  | cons s tl ih =>
    intro m
    rw [List.foldl_cons, List.foldl_cons, ih]
    congr 1
    unfold assignStep
    by_cases hmem : c ∈ lookupRepo commitsByRepo s.repoPath
    · rw [if_pos hmem]
      exact innerFold_getAssign_mem s _ m c hmem
        (lookupRepo_hash_nodup commitsByRepo s.repoPath hnodup)
    · rw [if_neg hmem]
      refine innerFold_getAssign_ne s _ m c.hash ?_
      intro x hx he
      have hx2 := mem_allRepoCommits_of_lookup hx
      have hxc : x = c := List.inj_on_of_nodup_map hnodup hx2 hcmem he
      exact hmem (hxc ▸ hx)

/-! ## The resolution step as an argmin over candidates -/

/-- The strict preference order never holds reflexively. -/
theorem rankLt_irrefl (s : Session) (c : Commit) : ¬ rankLt s s c := by
  unfold rankLt
  rintro (⟨h1, h2⟩ | ⟨-, h2⟩)
  · rw [h1] at h2
    simp at h2
  · omega

/-- If `p` does not beat the current winner `t` and `s` strictly beats `t`,
then `p` does not beat `s` either (totality of the lexicographic rank). -/
theorem rankLt_escalate (p s t : Session) (c : Commit)
    (h1 : ¬ rankLt p t c) (h2 : rankLt s t c) : ¬ rankLt p s c := by
  unfold rankLt at *
  by_cases hps : hasFileOverlapB p c = true <;>
    by_cases hss : hasFileOverlapB s c = true <;>
      by_cases hts : hasFileOverlapB t c = true <;>
        simp_all <;> omega

/-- When the guards fail, `stepCandidate` leaves the entry unchanged. -/
theorem stepCandidate_not_cand (s : Session) (c : Commit) (e : Option Assignment)
    (h : ¬(s.startMs ≤ c.timestampMs ∧ c.timestampMs ≤ s.endMs + FALLBACK_BUFFER_MS
      ∧ (hasFileOverlapB s c = true ∨ s.filesWritten = []))) :
    stepCandidate s c e = e := by
  unfold stepCandidate
  split_ifs with h1 h2
  · rfl
  · rfl
  · exfalso
    apply h
    push_neg at h1
    refine ⟨h1.1, h1.2, ?_⟩
    cases hov : hasFileOverlapB s c with
    | true => exact Or.inl rfl
    | false =>
      right
      cases hch : isChatOnlyB s with
      | true =>
        unfold isChatOnlyB at hch
        exact List.isEmpty_iff.mp hch
      | false =>
        exact absurd (by simp [hov, hch]) h2

/-- When the guards pass and no entry exists, the session claims the commit. -/
theorem stepCandidate_none (s : Session) (c : Commit)
    (hw : s.startMs ≤ c.timestampMs ∧ c.timestampMs ≤ s.endMs + FALLBACK_BUFFER_MS
      ∧ (hasFileOverlapB s c = true ∨ s.filesWritten = [])) :
    stepCandidate s c none = some (entryOf s c) := by
  unfold stepCandidate
  rw [if_neg (by push_neg; exact ⟨hw.1, hw.2.1⟩), if_neg ?hguard]
  case hguard =>
    rcases hw.2.2 with hov | hch
    · simp [hov]
    · simp [isChatOnlyB, hch]
  rfl

/-- When the guards pass against an existing winner's entry, the comparison is
exactly the strict preference order. -/
theorem stepCandidate_some (s t : Session) (c : Commit)
    (hw : s.startMs ≤ c.timestampMs ∧ c.timestampMs ≤ s.endMs + FALLBACK_BUFFER_MS
      ∧ (hasFileOverlapB s c = true ∨ s.filesWritten = [])) :
    stepCandidate s c (some (entryOf t c))
      = if rankLt s t c then some (entryOf s c) else some (entryOf t c) := by
  unfold stepCandidate
  rw [if_neg (by push_neg; exact ⟨hw.1, hw.2.1⟩), if_neg ?hguard]
  case hguard =>
    rcases hw.2.2 with hov | hch
    · simp [hov]
    · simp [isChatOnlyB, hch]
  simp only [entryOf]
  cases hss : hasFileOverlapB s c <;> cases hts : hasFileOverlapB t c <;>
    split_ifs <;> simp_all [rankLt] <;> omega

/-- One step of the per-commit fold preserves the argmin invariant. -/
theorem foldInv_step (commitsByRepo : RepoMap) (c : Commit) (procd : List Session)
    (e : Option Assignment) (s : Session) (h : FoldInv commitsByRepo c procd e) :
    FoldInv commitsByRepo c (procd ++ [s]) (assignStep commitsByRepo c e s) := by
  by_cases hcand : isCandidate commitsByRepo s c
  · have hw : s.startMs ≤ c.timestampMs ∧ c.timestampMs ≤ s.endMs + FALLBACK_BUFFER_MS
        ∧ (hasFileOverlapB s c = true ∨ s.filesWritten = []) :=
      ⟨hcand.2.1, hcand.2.2.1, hcand.2.2.2⟩
    unfold assignStep
    rw [if_pos hcand.1]
    rcases h with ⟨rfl, hnone⟩ | ⟨t, rfl, htmem, htcand, hmin⟩
    · rw [stepCandidate_none s c hw]
      right
      refine ⟨s, rfl, by simp, hcand, ?_⟩
      intro p hp hpc
      rcases List.mem_append.mp hp with hp1 | hp1
      · exact absurd hpc (hnone p hp1)
      · rw [List.mem_singleton.mp hp1]
        exact rankLt_irrefl s c
    · rw [stepCandidate_some s t c hw]
      split_ifs with hlt
      · right
        refine ⟨s, rfl, by simp, hcand, ?_⟩
        intro p hp hpc
        rcases List.mem_append.mp hp with hp1 | hp1
        · exact rankLt_escalate p s t c (hmin p hp1 hpc) hlt
        · rw [List.mem_singleton.mp hp1]
          exact rankLt_irrefl s c
      · right
        refine ⟨t, rfl, List.mem_append_left _ htmem, htcand, ?_⟩
        intro p hp hpc
        rcases List.mem_append.mp hp with hp1 | hp1
        · exact hmin p hp1 hpc
        · rw [List.mem_singleton.mp hp1]
          exact hlt
  · have hstep : assignStep commitsByRepo c e s = e := by
      unfold assignStep
      by_cases hmem : c ∈ lookupRepo commitsByRepo s.repoPath
      · rw [if_pos hmem]
        apply stepCandidate_not_cand
        intro hw
        exact hcand ⟨hmem, hw.1, hw.2.1, hw.2.2⟩
      · rw [if_neg hmem]
    rw [hstep]
    rcases h with ⟨rfl, hnone⟩ | ⟨t, rfl, htmem, htcand, hmin⟩
    · left
      refine ⟨rfl, ?_⟩
      intro p hp
      rcases List.mem_append.mp hp with hp1 | hp1
      · exact hnone p hp1
      · rw [List.mem_singleton.mp hp1]
        exact hcand
    · right
      refine ⟨t, rfl, List.mem_append_left _ htmem, htcand, ?_⟩
      intro p hp hpc
      rcases List.mem_append.mp hp with hp1 | hp1
      · exact hmin p hp1 hpc
      · rw [List.mem_singleton.mp hp1] at hpc ⊢
        exact absurd hpc hcand

/-- The argmin invariant holds of the whole per-commit fold. -/
theorem foldInv_fold (commitsByRepo : RepoMap) (c : Commit) (l procd : List Session)
    (e : Option Assignment) (h : FoldInv commitsByRepo c procd e) :
    FoldInv commitsByRepo c (procd ++ l) (l.foldl (assignStep commitsByRepo c) e) := by
  induction l generalizing procd e with
  | nil => simpa using h
  | cons s tl ih =>
    have h1 := foldInv_step commitsByRepo c procd e s h
    have h2 := ih (procd ++ [s]) _ h1
    simpa using h2

/-- The argmin invariant of the full session list. -/
theorem buildAssignment_foldInv (sessions : List Session) (commitsByRepo : RepoMap)
    (c : Commit) :
    FoldInv commitsByRepo c sessions (sessions.foldl (assignStep commitsByRepo c) none) := by
  have h := foldInv_fold commitsByRepo c sessions [] none (Or.inl ⟨rfl, by simp⟩)
  simpa using h

/-! ## C2: order independence of the resolution step -/

/-- C2 counterexample: the claim fails as stated.  Two chat-only sessions that
tie on (overlap class, temporal distance) for the same commit are resolved in
favor of whichever comes first in the input order, so permuting the sessions
changes the commit-to-session assignment. -/
theorem correlator_order_dependent_tie :
    List.Perm [c2sessT1, c2sessT2] [c2sessT2, c2sessT1]
    ∧ (getAssign (buildAssignment [c2sessT1, c2sessT2] c2repos) "ct").map
        (fun a => a.session.sessionId) = some "T1"
    ∧ (getAssign (buildAssignment [c2sessT2, c2sessT1] c2repos) "ct").map
        (fun a => a.session.sessionId) = some "T2" :=
  ⟨by decide, by decide, by decide⟩

/-- C2 (amended): the two-phase correlator's assignment is independent of the
session input order for every commit whose best candidate is unique — that is,
whenever some candidate session strictly beats (by `rankLt`: file overlap
first, then temporal distance) every other candidate.  Both runs then assign
the commit to that session.  With ties, the earlier session in input order
wins, so full order independence fails (see the counterexample). -/
theorem correlator_order_independent (sessions1 sessions2 : List Session)
    (commitsByRepo : RepoMap) (c : Commit) (best : Session)
    (hperm : List.Perm sessions1 sessions2)
    (hhash : ((allRepoCommits commitsByRepo).map (fun x => x.hash)).Nodup)
    (hc : c ∈ allRepoCommits commitsByRepo)
    (hbestmem : best ∈ sessions1)
    (hbestcand : isCandidate commitsByRepo best c)
    (hbest : ∀ s ∈ sessions1, isCandidate commitsByRepo s c → s ≠ best → rankLt best s c) :
    getAssign (buildAssignment sessions1 commitsByRepo) c.hash = some (entryOf best c)
    ∧ getAssign (buildAssignment sessions2 commitsByRepo) c.hash = some (entryOf best c) := by
  have key : ∀ l : List Session, best ∈ l →
      (∀ s ∈ l, isCandidate commitsByRepo s c → s ≠ best → rankLt best s c) →
      getAssign (buildAssignment l commitsByRepo) c.hash = some (entryOf best c) := by
    intro l hmem hmin
    rw [buildAssignment_getAssign l commitsByRepo c hhash hc]
    rcases buildAssignment_foldInv l commitsByRepo c with ⟨-, hnocand⟩ |
      ⟨t, heq, htmem, htcand, htmin⟩
    · exact absurd hbestcand (hnocand best hmem)
    · have hteq : t = best := by
        by_contra hbt
        exact (htmin best hmem hbestcand) (hmin t htmem htcand hbt)
      rw [heq, hteq]
  exact ⟨key sessions1 hbestmem hbest,
    key sessions2 (hperm.mem_iff.mp hbestmem)
      (fun s hs => hbest s (hperm.mem_iff.mpr hs))⟩

/-- Witness for C2 at a concrete input whose best candidate is unique: the
commit at time 1900 lies inside `c2sessW2` (distance 0) and at distance 900
from `c2sessW1`, so both session orders assign it to `c2sessW2`. -/
theorem correlator_order_independent_witness :
    getAssign (buildAssignment [c2sessW1, c2sessW2] c2reposW) "cw"
      = some (entryOf c2sessW2 c2commitW)
    ∧ getAssign (buildAssignment [c2sessW2, c2sessW1] c2reposW) "cw"
      = some (entryOf c2sessW2 c2commitW) :=
  correlator_order_independent [c2sessW1, c2sessW2] [c2sessW2, c2sessW1] c2reposW
    c2commitW c2sessW2 (by decide) (by decide) (by decide) (by decide) (by decide) (by decide)

/-! ## C3: file overlap beats temporal closeness -/

/-- C3: in the resolution step, whenever a commit has at least one candidate
session with file overlap, the winning entry has file overlap — a candidate
without overlap can never win regardless of temporal distance.  Concretely, in
the spec's scenario (session A 10:00–10:30 wrote `a.js`; session B 10:20–10:40
wrote `b.js`; commit at 10:35 touching only `b.js`) the commit is assigned to
session B. -/
theorem fileOverlap_beats_temporal :
    (∀ (sessions : List Session) (commitsByRepo : RepoMap) (c : Commit),
      ((allRepoCommits commitsByRepo).map (fun x => x.hash)).Nodup →
      c ∈ allRepoCommits commitsByRepo →
      (∃ s ∈ sessions, isCandidate commitsByRepo s c ∧ hasFileOverlapB s c = true) →
      ∃ a, getAssign (buildAssignment sessions commitsByRepo) c.hash = some a
        ∧ a.hasFileOverlap = true)
    ∧ (∃ cs ∈ (correlateSessions [c3sessA, c3sessB] c3repos).correlatedSessions,
        cs.session = c3sessB ∧ cs.commits = [c3commit]) := by
  constructor
  · intro sessions commitsByRepo c hhash hc hover
    obtain ⟨s0, hs0mem, hs0cand, hs0ov⟩ := hover
    rw [buildAssignment_getAssign sessions commitsByRepo c hhash hc]
    rcases buildAssignment_foldInv sessions commitsByRepo c with ⟨-, hnocand⟩ |
      ⟨t, heq, htmem, htcand, htmin⟩
    · exact absurd hs0cand (hnocand s0 hs0mem)
    · refine ⟨entryOf t c, heq, ?_⟩
      show hasFileOverlapB t c = true
      by_contra htov
      have htovf : hasFileOverlapB t c = false := by
        cases hb : hasFileOverlapB t c
        · rfl
        · exact absurd hb htov
      exact htmin s0 hs0mem hs0cand (Or.inl ⟨hs0ov, htovf⟩)
  · decide

/-- Witness for C3's general clause at the concrete scenario: the winning
entry for the commit carries file overlap. -/
theorem fileOverlap_beats_temporal_witness :
    ∃ a, getAssign (buildAssignment [c3sessA, c3sessB] c3repos) "c1" = some a
      ∧ a.hasFileOverlap = true :=
  fileOverlap_beats_temporal.1 [c3sessA, c3sessB] c3repos c3commit (by decide) (by decide)
    ⟨c3sessB, by decide, by decide, by decide⟩

/-! ## Phase-2 grouping lemmas -/

/-- Keys of `appendCommit`. -/
theorem keys_appendCommit (g : List (String × List Commit)) (sid : String) (c : Commit) :
    (appendCommit g sid c).map Prod.fst
      = if sid ∈ g.map Prod.fst then g.map Prod.fst else g.map Prod.fst ++ [sid] := by
  induction g with
  | nil => simp [appendCommit]
  | cons hd tl ih =>
    obtain ⟨k, cs⟩ := hd
    unfold appendCommit
    by_cases hk : k = sid
    · subst hk
      simp
    · rw [if_neg hk]
      by_cases hmem : sid ∈ tl.map Prod.fst
      · rw [List.map_cons, List.map_cons, ih, if_pos hmem, if_pos (by simp [hmem])]
      · rw [List.map_cons, List.map_cons, ih, if_neg hmem,
          if_neg (by simp [hmem, Ne.symm hk])]
        simp

/-- `appendCommit` preserves distinctness of keys. -/
theorem keys_nodup_appendCommit (g : List (String × List Commit)) (sid : String) (c : Commit)
    (h : (g.map Prod.fst).Nodup) : ((appendCommit g sid c).map Prod.fst).Nodup := by
  rw [keys_appendCommit]
  split_ifs with hmem
  · exact h
  · simpa [List.nodup_append, hmem] using h

/-- `appendCommit` adds exactly one commit to the flattened contents. -/
theorem flatten_appendCommit (g : List (String × List Commit)) (sid : String) (c : Commit) :
    List.Perm ((appendCommit g sid c).flatMap Prod.snd) (g.flatMap Prod.snd ++ [c]) := by
  induction g with
  | nil => simp [appendCommit]
  | cons hd tl ih =>
    obtain ⟨k, cs⟩ := hd
    unfold appendCommit
    by_cases hk : k = sid
    · subst hk
      rw [if_pos rfl]
      simp only [List.flatMap_cons, List.append_assoc]
      exact List.Perm.append_left cs List.perm_append_comm
    · rw [if_neg hk]
      simp only [List.flatMap_cons, List.append_assoc]
      exact List.Perm.append_left cs ih

/-- The bucket of `appendCommit` grows at its own key and is untouched elsewhere. -/
theorem lookupGroup_appendCommit (g : List (String × List Commit)) (k sid : String)
    (c : Commit) :
    (lookupGroup (appendCommit g k c) sid).getD []
      = if k = sid then (lookupGroup g sid).getD [] ++ [c]
        else (lookupGroup g sid).getD [] := by
  induction g with
  | nil => by_cases h : k = sid <;> simp [appendCommit, lookupGroup, List.find?, h]
  | cons hd tl ih =>
    obtain ⟨k0, cs⟩ := hd
    unfold appendCommit
    by_cases hk0 : k0 = k
    · subst hk0
      by_cases hsid : k0 = sid
      · subst hsid
        simp [lookupGroup, List.find?]
      · simp [lookupGroup, List.find?, hsid]
    · rw [if_neg hk0]
      by_cases hsid : k0 = sid
      · subst hsid
        have hne : ¬ k = k0 := fun h => hk0 h.symm
        simp [lookupGroup, List.find?, hne]
      · simpa [lookupGroup, List.find?, hsid] using ih

/-- The flattened phase-2 groups are exactly the found commits of the entries. -/
theorem flatten_groupBySession (commitsByRepo : RepoMap) (m : AssignMap) :
    List.Perm ((groupBySession commitsByRepo m).flatMap Prod.snd)
      (m.filterMap (foundCommit commitsByRepo)) := by
  unfold groupBySession
  suffices h : ∀ (l : AssignMap) (g : List (String × List Commit)),
      List.Perm ((l.foldl (groupStep commitsByRepo) g).flatMap Prod.snd)
        (g.flatMap Prod.snd ++ l.filterMap (foundCommit commitsByRepo)) by
    simpa using h m []
  intro l
  induction l with
  | nil =>
    intro g
    simp
  | cons p rest ih =>
    intro g
    rw [List.foldl_cons]
    refine (ih (groupStep commitsByRepo g p)).trans ?_
    cases hf : foundCommit commitsByRepo p with
    | none =>
      rw [List.filterMap_cons, hf]
      unfold groupStep
      rw [hf]
    | some c =>
      rw [List.filterMap_cons, hf]
      have hstep : List.Perm ((groupStep commitsByRepo g p).flatMap Prod.snd)
          (g.flatMap Prod.snd ++ [c]) := by
        unfold groupStep
        rw [hf]
        exact flatten_appendCommit g _ c
      refine (hstep.append_right _).trans ?_
      simp only [List.append_assoc, List.singleton_append]
      exact List.Perm.refl _

/-- Buckets only grow during phase 2. -/
theorem lookupGroup_mono (commitsByRepo : RepoMap) (l : AssignMap)
    (g : List (String × List Commit)) (sid : String) (x : Commit)
    (hx : x ∈ (lookupGroup g sid).getD []) :
    x ∈ (lookupGroup (l.foldl (groupStep commitsByRepo) g) sid).getD [] := by
  induction l generalizing g with
  | nil => exact hx
  | cons p rest ih =>
    rw [List.foldl_cons]
    refine ih (groupStep commitsByRepo g p) ?_
    unfold groupStep
    cases hf : foundCommit commitsByRepo p with
    | none => exact hx
    | some c =>
      rw [lookupGroup_appendCommit]
      split_ifs
      · exact List.mem_append_left _ hx
      · exact hx

/-- Every commit in a bucket was put there by some entry of the map. -/
theorem mem_group_of_lookup (commitsByRepo : RepoMap) (m : AssignMap) (sid : String)
    (x : Commit) (hx : x ∈ (lookupGroup (groupBySession commitsByRepo m) sid).getD []) :
    ∃ p ∈ m, p.2.session.sessionId = sid ∧ foundCommit commitsByRepo p = some x := by
  unfold groupBySession at hx
  suffices h : ∀ (l : AssignMap) (g : List (String × List Commit)),
      x ∈ (lookupGroup (l.foldl (groupStep commitsByRepo) g) sid).getD [] →
      x ∈ (lookupGroup g sid).getD []
        ∨ ∃ p ∈ l, p.2.session.sessionId = sid ∧ foundCommit commitsByRepo p = some x by
    rcases h m [] hx with h1 | h1
    · simp [lookupGroup, List.find?] at h1
    · exact h1
  intro l
  induction l with
  | nil =>
    intro g hg
    exact Or.inl hg
  | cons p rest ih =>
    intro g hg
    rw [List.foldl_cons] at hg
    rcases ih (groupStep commitsByRepo g p) hg with h1 | h1
    · unfold groupStep at h1
      cases hf : foundCommit commitsByRepo p with
      | none =>
        rw [hf] at h1
        exact Or.inl h1
      | some c =>
        rw [hf, lookupGroup_appendCommit] at h1
        split_ifs at h1 with hsid
        · rcases List.mem_append.mp h1 with h2 | h2
          · exact Or.inl h2
          · right
            refine ⟨p, by simp, hsid, ?_⟩
            rw [hf, List.mem_singleton.mp h2]
        · exact Or.inl h1
    · obtain ⟨q, hq, hq2⟩ := h1
      exact Or.inr ⟨q, List.mem_cons_of_mem _ hq, hq2⟩

/-- An entry whose commit was found contributes it to its session's bucket. -/
theorem lookup_of_mem_entry (commitsByRepo : RepoMap) (m : AssignMap)
    (p : String × Assignment) (hp : p ∈ m) (c : Commit)
    (hf : foundCommit commitsByRepo p = some c) :
    c ∈ (lookupGroup (groupBySession commitsByRepo m) p.2.session.sessionId).getD [] := by
  unfold groupBySession
  suffices h : ∀ (l : AssignMap) (g : List (String × List Commit)), p ∈ l →
      c ∈ (lookupGroup (l.foldl (groupStep commitsByRepo) g) p.2.session.sessionId).getD [] by
    exact h m [] hp
  intro l
  induction l with
  | nil =>
    intro g hg
    cases hg
  | cons q rest ih =>
    intro g hq
    rw [List.foldl_cons]
    rcases List.mem_cons.mp hq with rfl | hmem
    · refine lookupGroup_mono commitsByRepo rest _ _ c ?_
      unfold groupStep
      rw [hf, lookupGroup_appendCommit, if_pos rfl]
      exact List.mem_append_right _ (by simp)
    · exact ih _ hmem

/-- Every group key is the session id of some entry. -/
theorem group_keys_sub (commitsByRepo : RepoMap) (m : AssignMap) :
    ∀ k ∈ (groupBySession commitsByRepo m).map Prod.fst,
      ∃ p ∈ m, p.2.session.sessionId = k := by
  unfold groupBySession
  refine foldl_preserve_mem
    (fun g => ∀ k ∈ g.map Prod.fst, ∃ p ∈ m, p.2.session.sessionId = k)
    (groupStep commitsByRepo) m [] (by simp) ?_
  intro g q hq hg k hk
  unfold groupStep at hk
  cases hf : foundCommit commitsByRepo q with
  | none =>
    rw [hf] at hk
    exact hg k hk
  | some c =>
    rw [hf, keys_appendCommit] at hk
    split_ifs at hk with hmem
    · exact hg k hk
    · rcases List.mem_append.mp hk with h1 | h1
      · exact hg k h1
      · exact ⟨q, hq, (List.mem_singleton.mp h1).symm⟩

/-- The phase-2 groups have distinct keys. -/
theorem group_keys_nodup (commitsByRepo : RepoMap) (m : AssignMap) :
    ((groupBySession commitsByRepo m).map Prod.fst).Nodup := by
  unfold groupBySession
  refine foldl_preserve (fun g => (g.map Prod.fst).Nodup)
    (groupStep commitsByRepo) m [] (by simp) ?_
  intro g q hg
  unfold groupStep
  cases hf : foundCommit commitsByRepo q with
  | none => exact hg
  | some c => exact keys_nodup_appendCommit g _ c hg

/-! ## Collecting the buckets along the session list -/

/-- `eraseKey` yields a sublist. -/
theorem eraseKey_sublist (g : List (String × List Commit)) (sid : String) :
    (eraseKey g sid).Sublist g := by
  induction g with
  | nil => simp [eraseKey]
  | cons hd tl ih =>
    obtain ⟨k, v⟩ := hd
    unfold eraseKey
    split_ifs
    · exact List.sublist_cons_self _ _
    · exact ih.cons₂ _

/-- Erasing a key does not change other keys' lookups. -/
theorem lookupGroup_eraseKey_ne (g : List (String × List Commit)) (sid k : String)
    (hne : k ≠ sid) : lookupGroup (eraseKey g sid) k = lookupGroup g k := by
  induction g with
  | nil => rfl
  | cons hd tl ih =>
    obtain ⟨k0, v⟩ := hd
    unfold eraseKey
    by_cases hk : k0 = sid
    · subst hk
      have : ¬ k0 = k := fun h => hne h.symm
      simp [lookupGroup, List.find?, this]
    · rw [if_neg hk]
      by_cases hk2 : k0 = k
      · simp [lookupGroup, List.find?, hk2]
      · simpa [lookupGroup, List.find?, hk2] using ih

/-- With distinct keys, the erased key is gone. -/
theorem eraseKey_not_mem (g : List (String × List Commit)) (sid : String)
    (hkeys : (g.map Prod.fst).Nodup) : sid ∉ (eraseKey g sid).map Prod.fst := by
  induction g with
  | nil => simp [eraseKey]
  | cons hd tl ih =>
    obtain ⟨k0, v⟩ := hd
    have hmc : (k0 :: tl.map Prod.fst).Nodup := by simpa using hkeys
    have hnd := List.nodup_cons.mp hmc
    unfold eraseKey
    by_cases hk : k0 = sid
    · subst hk
      rw [if_pos rfl]
      exact hnd.1
    · rw [if_neg hk]
      intro hmem
      rw [List.map_cons] at hmem
      rcases List.mem_cons.mp hmem with h1 | h1
      · exact hk h1.symm
      · exact ih hnd.2 h1

/-- Splitting the flattened groups at a present key. -/
theorem flatten_eraseKey (g : List (String × List Commit)) (sid : String)
    (bucket : List Commit) (hl : lookupGroup g sid = some bucket) :
    List.Perm (g.flatMap Prod.snd) (bucket ++ (eraseKey g sid).flatMap Prod.snd) := by
  induction g with
  | nil => cases hl
  | cons hd tl ih =>
    obtain ⟨k0, v⟩ := hd
    by_cases hk : k0 = sid
    · subst hk
      have hbv : v = bucket := by
        simpa [lookupGroup, List.find?] using hl
      subst hbv
      unfold eraseKey
      rw [if_pos rfl]
      simp
    · have hl2 : lookupGroup tl sid = some bucket := by
        simpa [lookupGroup, List.find?, hk] using hl
      unfold eraseKey
      rw [if_neg hk]
      simp only [List.flatMap_cons]
      refine (List.Perm.append_left v (ih hl2)).trans ?_
      rw [← List.append_assoc, ← List.append_assoc]
      exact List.perm_append_comm.append_right _

/-- Pointwise-equal functions give equal `flatMap`s. -/
theorem flatMap_congr_mem {α β : Type} (l : List α) (f g : α → List β)
    (h : ∀ x ∈ l, f x = g x) : l.flatMap f = l.flatMap g := by
  induction l with
  | nil => rfl
  | cons hd tl ih =>
    rw [List.flatMap_cons, List.flatMap_cons, h hd (by simp),
      ih (fun x hx => h x (by simp [hx]))]

/-- An absent lookup means the key is absent. -/
theorem lookupGroup_none_not_mem (g : List (String × List Commit)) (sid : String)
    (hl : lookupGroup g sid = none) : sid ∉ g.map Prod.fst := by
  intro hmem
  obtain ⟨p, hp, hpk⟩ := List.mem_map.mp hmem
  unfold lookupGroup at hl
  rw [Option.map_eq_none'] at hl
  have := List.find?_eq_none.mp hl p hp
  simp [hpk] at this

/-- Collecting each distinct session id's bucket once gathers exactly the
flattened groups, when every group key occurs among the ids. -/
theorem flatten_lookup_perm (ids : List String) (g : List (String × List Commit))
    (hids : ids.Nodup) (hkeys : (g.map Prod.fst).Nodup)
    (hsub : ∀ k ∈ g.map Prod.fst, k ∈ ids) :
    List.Perm (ids.flatMap (fun sid => (lookupGroup g sid).getD []))
      (g.flatMap Prod.snd) := by
  induction ids generalizing g with
  | nil =>
    have hg : g = [] := by
      cases g with
      | nil => rfl
      | cons hd tl => exact absurd (hsub hd.1 (by simp)) (by simp)
    simp [hg]
  | cons sid rest ih =>
    have hnd := List.nodup_cons.mp hids
    rw [List.flatMap_cons]
    cases hl : lookupGroup g sid with
    | none =>
      have hnotkey : ∀ k ∈ g.map Prod.fst, k ∈ rest := by
        intro k hk
        rcases List.mem_cons.mp (hsub k hk) with rfl | h
        · exact absurd hk (lookupGroup_none_not_mem g k hl)
        · exact h
      simpa using ih g hnd.2 hkeys hnotkey
    | some bucket =>
      have hperm := flatten_eraseKey g sid bucket hl
      have hcongr : rest.flatMap (fun k => (lookupGroup g k).getD [])
          = rest.flatMap (fun k => (lookupGroup (eraseKey g sid) k).getD []) := by
        refine flatMap_congr_mem rest _ _ ?_
        intro k hk
        rw [lookupGroup_eraseKey_ne g sid k (fun he => hnd.1 (he ▸ hk))]
      have hkeys2 : ((eraseKey g sid).map Prod.fst).Nodup :=
        ((eraseKey_sublist g sid).map Prod.fst).nodup hkeys
      have hsub2 : ∀ k ∈ (eraseKey g sid).map Prod.fst, k ∈ rest := by
        intro k hk
        have hkg : k ∈ g.map Prod.fst := ((eraseKey_sublist g sid).map Prod.fst).subset hk
        rcases List.mem_cons.mp (hsub k hkg) with rfl | h
        · exact absurd hk (eraseKey_not_mem g k hkeys)
        · exact h
      rw [hcongr]
      simp only [Option.getD_some]
      refine List.Perm.trans ?_ hperm.symm
      exact List.Perm.append_left bucket (ih (eraseKey g sid) hnd.2 hkeys2 hsub2)

/-! ## C1: the partition invariant -/

/-- Properties of a successful phase-2 lookup. -/
theorem found_hash (commitsByRepo : RepoMap) (p : String × Assignment) (c : Commit)
    (hf : foundCommit commitsByRepo p = some c) :
    c.hash = p.1 ∧ c ∈ lookupRepo commitsByRepo p.2.session.repoPath := by
  unfold foundCommit at hf
  constructor
  · have := List.find?_some hf
    simpa using this
  · exact List.mem_of_find?_eq_some hf

/-- Phase 2 finds a commit for every well-formed entry. -/
theorem foundCommit_total (sessions : List Session) (commitsByRepo : RepoMap)
    (p : String × Assignment) (hok : EntryOk sessions commitsByRepo p) :
    ∃ c, foundCommit commitsByRepo p = some c := by
  obtain ⟨-, c, hc, hhash⟩ := hok
  unfold foundCommit
  have hsome : ((lookupRepo commitsByRepo p.2.session.repoPath).find?
      (fun x => decide (x.hash = p.1))).isSome = true := by
    rw [List.find?_isSome]
    exact ⟨c, hc, by simp [hhash]⟩
  exact Option.isSome_iff_exists.mp hsome

/-- The hashes of the found commits are exactly the map keys. -/
theorem filterMap_found_hashes (commitsByRepo : RepoMap) (m : AssignMap)
    (htotal : ∀ p ∈ m, ∃ c, foundCommit commitsByRepo p = some c) :
    (m.filterMap (foundCommit commitsByRepo)).map (fun c => c.hash) = m.map Prod.fst := by
  induction m with
  | nil => rfl
  | cons p rest ih =>
    obtain ⟨c, hc⟩ := htotal p (by simp)
    simp only [List.filterMap_cons, hc, List.map_cons]
    rw [ih (fun q hq => htotal q (by simp [hq])), (found_hash commitsByRepo p c hc).1]

/-- The organic commits form a sublist of all commits. -/
theorem organic_sublist (commitsByRepo : RepoMap) (claimed : List String) :
    (commitsByRepo.flatMap (fun p => p.2.filter (fun c => !claimed.contains c.hash))).Sublist
      (allRepoCommits commitsByRepo) := by
  unfold allRepoCommits
  induction commitsByRepo with
  | nil => simp
  | cons hd tl ih =>
    rw [List.flatMap_cons, List.flatMap_cons]
    exact (List.filter_sublist _).append ih

/-- `flatMap` after `map` composes. -/
theorem flatMap_map_comp {α β γ : Type} (l : List α) (f : α → β) (g : β → List γ) :
    (l.map f).flatMap g = l.flatMap (fun x => g (f x)) := by
  induction l with
  | nil => rfl
  | cons hd tl ih => simp [ih]

/-- C1 (amended): when session identifiers are pairwise distinct and commit
hashes are globally distinct across repositories (not merely within each — see
the counterexample for why the global condition is needed), the two-phase
correlator partitions the commits: the concatenation of all correlated
sessions' assigned-commits lists with the organic-commits list is a
permutation of the full commit collection (no commit duplicated, none lost),
and a commit never appears in two different correlated sessions. -/
theorem correlator_partition (sessions : List Session) (commitsByRepo : RepoMap)
    (hids : (sessions.map (fun s => s.sessionId)).Nodup)
    (hhash : ((allRepoCommits commitsByRepo).map (fun c => c.hash)).Nodup) :
    List.Perm
      ((((correlateSessions sessions commitsByRepo).correlatedSessions).flatMap
          (fun cs => cs.commits))
        ++ (correlateSessions sessions commitsByRepo).organicCommits)
      (allRepoCommits commitsByRepo)
    ∧ (∀ cs1 ∈ (correlateSessions sessions commitsByRepo).correlatedSessions,
        ∀ cs2 ∈ (correlateSessions sessions commitsByRepo).correlatedSessions,
          ∀ c : Commit, c ∈ cs1.commits → c ∈ cs2.commits → cs1 = cs2) := by
  obtain ⟨hok, hkeysnd⟩ := buildAssignment_ok sessions commitsByRepo
  have htotal : ∀ p ∈ buildAssignment sessions commitsByRepo,
      ∃ c, foundCommit commitsByRepo p = some c :=
    fun p hp => foundCommit_total sessions commitsByRepo p (hok p hp)
  have hcs : (correlateSessions sessions commitsByRepo).correlatedSessions
      = List.insertionSort (fun a b => b.session.startMs ≤ a.session.startMs)
          (sessions.map (buildCorrelated
            (groupBySession commitsByRepo (buildAssignment sessions commitsByRepo)))) := rfl
  have horg : (correlateSessions sessions commitsByRepo).organicCommits
      = commitsByRepo.flatMap (fun p => p.2.filter
          (fun c => !((buildAssignment sessions commitsByRepo).map Prod.fst).contains c.hash)) :=
    rfl
  have hA : List.Perm
      (((correlateSessions sessions commitsByRepo).correlatedSessions).flatMap
        (fun cs => cs.commits))
      ((buildAssignment sessions commitsByRepo).filterMap (foundCommit commitsByRepo)) := by
    rw [hcs]
    refine ((List.perm_insertionSort _ _).flatMap_right _).trans ?_
    have h1 : (sessions.map (buildCorrelated
        (groupBySession commitsByRepo (buildAssignment sessions commitsByRepo)))).flatMap
          (fun cs => cs.commits)
        = (sessions.map (fun s => s.sessionId)).flatMap
            (fun sid => (lookupGroup
              (groupBySession commitsByRepo (buildAssignment sessions commitsByRepo)) sid).getD []) := by
      rw [flatMap_map_comp, flatMap_map_comp]
      refine flatMap_congr_mem _ _ _ ?_
      intro s hs
      rfl
    rw [h1]
    refine (flatten_lookup_perm _ _ hids (group_keys_nodup _ _) ?_).trans
      (flatten_groupBySession commitsByRepo (buildAssignment sessions commitsByRepo))
    intro k hk
    obtain ⟨p, hp, hsid⟩ := group_keys_sub commitsByRepo _ k hk
    exact List.mem_map.mpr ⟨p.2.session, (hok p hp).1, hsid⟩
  have hInodup : (allRepoCommits commitsByRepo).Nodup := hhash.of_map
  have hOnodup : ((correlateSessions sessions commitsByRepo).organicCommits).Nodup := by
    rw [horg]
    exact (organic_sublist commitsByRepo _).nodup hInodup
  have hFnodup : ((buildAssignment sessions commitsByRepo).filterMap
      (foundCommit commitsByRepo)).Nodup := by
    have hmapnd : (((buildAssignment sessions commitsByRepo).filterMap
        (foundCommit commitsByRepo)).map (fun c => c.hash)).Nodup := by
      rw [filterMap_found_hashes commitsByRepo _ htotal]
      exact hkeysnd
    exact hmapnd.of_map
  have hAnodup : ((((correlateSessions sessions commitsByRepo).correlatedSessions).flatMap
      (fun cs => cs.commits))).Nodup := hA.nodup_iff.mpr hFnodup
  have hFmem_key : ∀ x ∈ (buildAssignment sessions commitsByRepo).filterMap
      (foundCommit commitsByRepo),
      x.hash ∈ (buildAssignment sessions commitsByRepo).map Prod.fst := by
    intro x hx
    obtain ⟨p, hp, hf⟩ := List.mem_filterMap.mp hx
    rw [(found_hash commitsByRepo p x hf).1]
    exact List.mem_map.mpr ⟨p, hp, rfl⟩
  have hFsub : ∀ x ∈ (buildAssignment sessions commitsByRepo).filterMap
      (foundCommit commitsByRepo), x ∈ allRepoCommits commitsByRepo := by
    intro x hx
    obtain ⟨p, hp, hf⟩ := List.mem_filterMap.mp hx
    exact mem_allRepoCommits_of_lookup (found_hash commitsByRepo p x hf).2
  have hOmem : ∀ x : Commit, x ∈ (correlateSessions sessions commitsByRepo).organicCommits ↔
      (x ∈ allRepoCommits commitsByRepo
        ∧ x.hash ∉ (buildAssignment sessions commitsByRepo).map Prod.fst) := by
    intro x
    rw [horg]
    unfold allRepoCommits
    constructor
    · intro hx
      obtain ⟨pair, hpair, hmem⟩ := List.mem_flatMap.mp hx
      obtain ⟨hmm, hcond⟩ := List.mem_filter.mp hmem
      refine ⟨List.mem_flatMap.mpr ⟨pair, hpair, hmm⟩, ?_⟩
      simpa using hcond
    · rintro ⟨hx, hnk⟩
      obtain ⟨pair, hpair, hmm⟩ := List.mem_flatMap.mp hx
      exact List.mem_flatMap.mpr ⟨pair, hpair, List.mem_filter.mpr ⟨hmm, by simpa using hnk⟩⟩
  have hmem_iff : ∀ x : Commit,
      x ∈ ((((correlateSessions sessions commitsByRepo).correlatedSessions).flatMap
          (fun cs => cs.commits))
        ++ (correlateSessions sessions commitsByRepo).organicCommits)
      ↔ x ∈ allRepoCommits commitsByRepo := by
    intro x
    rw [List.mem_append]
    constructor
    · rintro (hx | hx)
      · exact hFsub x (hA.subset hx)
      · exact ((hOmem x).mp hx).1
    · intro hx
      by_cases hk : x.hash ∈ (buildAssignment sessions commitsByRepo).map Prod.fst
      · left
        refine hA.symm.subset ?_
        obtain ⟨p, hp, hpk⟩ := List.mem_map.mp hk
        obtain ⟨c, hc⟩ := htotal p hp
        have hcp := found_hash commitsByRepo p c hc
        have hcx : c = x := by
          refine List.inj_on_of_nodup_map hhash (mem_allRepoCommits_of_lookup hcp.2) hx ?_
          rw [hcp.1, hpk]
        exact List.mem_filterMap.mpr ⟨p, hp, hcx ▸ hc⟩
      · right
        exact (hOmem x).mpr ⟨hx, hk⟩
  have hdisjoint : ∀ x ∈ (((correlateSessions sessions commitsByRepo).correlatedSessions).flatMap
      (fun cs => cs.commits)),
      x ∉ (correlateSessions sessions commitsByRepo).organicCommits := by
    intro x hx hxo
    exact ((hOmem x).mp hxo).2 (hFmem_key x (hA.subset hx))
  refine ⟨(List.perm_ext_iff_of_nodup
      (hAnodup.append hOnodup (fun a ha hb => hdisjoint a ha hb)) hInodup).mpr hmem_iff, ?_⟩
  intro cs1 hcs1 cs2 hcs2 c hc1 hc2
  rw [hcs] at hcs1 hcs2
  rw [List.Perm.mem_iff (List.perm_insertionSort _ _)] at hcs1 hcs2
  obtain ⟨s1, hs1, rfl⟩ := List.mem_map.mp hcs1
  obtain ⟨s2, hs2, rfl⟩ := List.mem_map.mp hcs2
  obtain ⟨p1, hp1, hsid1, hf1⟩ := mem_group_of_lookup commitsByRepo
    (buildAssignment sessions commitsByRepo) s1.sessionId c hc1
  obtain ⟨p2, hp2, hsid2, hf2⟩ := mem_group_of_lookup commitsByRepo
    (buildAssignment sessions commitsByRepo) s2.sessionId c hc2
  have hpk : p1.1 = p2.1 := by
    rw [← (found_hash commitsByRepo p1 c hf1).1, ← (found_hash commitsByRepo p2 c hf2).1]
  have hp12 : p1 = p2 := by
    obtain ⟨k1, a1⟩ := p1
    obtain ⟨k2, a2⟩ := p2
    simp only at hpk
    subst hpk
    rw [assign_value_unique (buildAssignment sessions commitsByRepo) hkeysnd k1 a1 a2 hp1 hp2]
  have hsid : s1.sessionId = s2.sessionId := by rw [← hsid1, ← hsid2, hp12]
  have hs12 : s1 = s2 := List.inj_on_of_nodup_map hids hs1 hs2 hsid
  rw [hs12]

/-- C1 counterexample: the claim fails as stated.  With hashes unique within
each repository but shared across the two repositories, the second
repository's commit ends up in no session's assigned list and not in the
organic list either — it is lost, so the union is not the full commit set. -/
theorem correlator_partition_counterexample :
    (∀ p ∈ c1repos, ((p.2.map (fun c => c.hash)).Nodup))
    ∧ c1commitB ∈ allRepoCommits c1repos
    ∧ c1commitB ∉ ((((correlateSessions [c1sessS1, c1sessS2] c1repos).correlatedSessions).flatMap
        (fun cs => cs.commits))
      ++ (correlateSessions [c1sessS1, c1sessS2] c1repos).organicCommits) :=
  ⟨by decide, by decide, by decide⟩

/-- Witness for C1 at the concrete tie-break fixture (distinct session ids,
globally distinct hashes). -/
theorem correlator_partition_witness :
    List.Perm
      ((((correlateSessions [c3sessA, c3sessB] c3repos).correlatedSessions).flatMap
          (fun cs => cs.commits))
        ++ (correlateSessions [c3sessA, c3sessB] c3repos).organicCommits)
      (allRepoCommits c3repos) :=
  (correlator_partition [c3sessA, c3sessB] c3repos (by decide) (by decide)).1

end Codelens
